import Mathlib

/-!
Verification of the tool-calling orchestration core of the recipe-mcp-server
repository (src/olama_mcp_host.py, src/recipe_mcp/storage.py).

The development shallowly embeds the Python source:
* a JSON value datatype `JValue` together with `jsonDumps` / `jsonLoads`,
  modelling the behaviour of the json standard-library calls the source makes
  (default separators, insertion order preserved, integers exact; control and
  non-ASCII characters are emitted verbatim instead of as \u escapes, which
  does not affect any property proved here);
* `normalize_tool_arguments`, `tool_result_content_to_json_string`,
  `mcp_tools_to_ollama_tools` and `run_chat_turn` from src/olama_mcp_host.py;
* the pantry operations of `SqliteStore` from src/recipe_mcp/storage.py.
-/

/-- A JSON value: the data normalized tool arguments and encoded tool results
range over.  Numbers are modelled as exact integers (the source never produces
fractional numbers in the properties considered here). -/
inductive JValue where
  | null
  | bool (b : Bool)
  | num (n : Int)
  | str (s : String)
  | arr (xs : List JValue)
  | obj (kvs : List (String × JValue))

/-- Keyed JSON data, the shape of a canonical argument set. -/
def JObj := List (String × JValue)

/-! ## Serialisation, modelling json.dumps -/

/-- JSON escaping of one character, as json.dumps performs it on the
characters relevant here: quote, backslash, newline, tab and carriage return
get two-character escapes, everything else is emitted as-is. -/
def escChar (c : Char) : List Char :=
  if c = '"' then ['\\', '"']
  else if c = '\\' then ['\\', '\\']
  else if c = '\n' then ['\\', 'n']
  else if c = '\t' then ['\\', 't']
  else if c = '\r' then ['\\', 'r']
  else [c]

/-- The characters of a JSON string literal: quotes around the escaped body. -/
def encStr (s : String) : List Char :=
  '"' :: (s.data.flatMap escChar ++ ['"'])

/-- Decimal digits of a natural number, most significant first, in front of
`acc`. -/
def natDigs (n : Nat) (acc : List Char) : List Char :=
  let d := Char.ofNat (48 + n % 10)
  if h : n < 10 then d :: acc
  else natDigs (n / 10) (d :: acc)
  termination_by n
  decreasing_by exact Nat.div_lt_self (by omega) (by omega)

/-- The decimal form of an integer, as json.dumps renders int values. -/
def intChars (n : Int) : List Char :=
  if n < 0 then '-' :: natDigs n.natAbs [] else natDigs n.natAbs []

mutual
/-- Characters of the serialised form of a value, with the json.dumps default
separators: elements joined by a comma and a space, keys followed by a colon
and a space. -/
def dumpVal : JValue → List Char
  | .null => "null".data
  | .bool true => "true".data
  | .bool false => "false".data
  | .num n => intChars n
  | .str s => encStr s
  | .arr [] => ['[', ']']
  | .arr (x :: xs) => '[' :: (dumpVal x ++ dumpMoreItems xs ++ [']'])
  | .obj [] => ['\x7b', '\x7d']
  | .obj (m :: ms) => '\x7b' :: (dumpEntry m ++ dumpMoreEntries ms ++ ['\x7d'])

/-- One object member: serialised key, colon, space, serialised value. -/
def dumpEntry : String × JValue → List Char
  | (k, v) => encStr k ++ ':' :: ' ' :: dumpVal v

/-- Trailing array elements, each preceded by a comma and a space. -/
def dumpMoreItems : List JValue → List Char
  | [] => []
  | x :: xs => ',' :: ' ' :: (dumpVal x ++ dumpMoreItems xs)

/-- Trailing object members, each preceded by a comma and a space. -/
def dumpMoreEntries : List (String × JValue) → List Char
  | [] => []
  | m :: ms => ',' :: ' ' :: (dumpEntry m ++ dumpMoreEntries ms)
end

/-- The serialised string of a value: the model of json.dumps. -/
def jsonDumps (v : JValue) : String := String.mk (dumpVal v)

/-! ## Parsing, modelling json.loads -/

/-- JSON insignificant whitespace. -/
def wsChar (c : Char) : Bool := c = ' ' || c = '\t' || c = '\n' || c = '\r'

/-- Drop leading insignificant whitespace. -/
def dropWs : List Char → List Char
  | c :: cs => if wsChar c then dropWs cs else c :: cs
  | [] => []

/-- Decimal digit test. -/
def digitChar (c : Char) : Bool := 48 ≤ c.toNat && c.toNat ≤ 57

/-- Split off the maximal run of leading decimal digits. -/
def grabDigits : List Char → List Char × List Char
  | c :: cs =>
      if digitChar c then
        let (ds, r) := grabDigits cs
        (c :: ds, r)
      else ([], c :: cs)
  | [] => ([], [])

/-- Value of a most-significant-first digit run. -/
def digsVal (ds : List Char) : Nat :=
  ds.foldl (fun a c => 10 * a + (c.toNat - 48)) 0

/-- Inverse of the escape table (plus the slash, backspace and form-feed
escapes json.loads also accepts; \u escapes are not modelled). -/
def readEsc : Char → Option Char
  | 'n' => some '\n'
  | 't' => some '\t'
  | 'r' => some '\r'
  | 'b' => some (Char.ofNat 8)
  | 'f' => some (Char.ofNat 12)
  | '"' => some '"'
  | '\\' => some '\\'
  | '/' => some '/'
  | _ => none

/-- Read a string body after the opening quote, undoing escapes, up to the
closing quote. -/
def readStr : List Char → Option (String × List Char)
  | [] => none
  | '"' :: cs => some ("", cs)
  | '\\' :: [] => none
  | '\\' :: e :: cs2 =>
      match readEsc e with
      | none => none
      | some u =>
          match readStr cs2 with
          | none => none
          | some (s, r) => some (String.mk (u :: s.data), r)
  | c :: cs =>
      match readStr cs with
      | none => none
      | some (s, r) => some (String.mk (c :: s.data), r)

/-- Read an integer: an optional minus sign and a nonempty digit run.
Fractional and exponent forms are outside the model. -/
def readNum : List Char → Option (Int × List Char)
  | '-' :: r =>
      match grabDigits r with
      | ([], _) => none
      | (ds, r2) => some (-(digsVal ds : Int), r2)
  | cs =>
      match grabDigits cs with
      | ([], _) => none
      | (ds, r2) => some ((digsVal ds : Int), r2)

mutual
/-- Read one JSON value (fuelled; `jsonLoads` supplies ample fuel). -/
def readVal : Nat → List Char → Option (JValue × List Char)
  | 0, _ => none
  | fu + 1, cs =>
      match dropWs cs with
      | 'n' :: 'u' :: 'l' :: 'l' :: r => some (.null, r)
      | 't' :: 'r' :: 'u' :: 'e' :: r => some (.bool true, r)
      | 'f' :: 'a' :: 'l' :: 's' :: 'e' :: r => some (.bool false, r)
      | '"' :: r =>
          match readStr r with
          | some (s, r2) => some (.str s, r2)
          | none => none
      | '[' :: r =>
          match dropWs r with
          | [] => none
          | c2 :: r2 =>
              if c2 = ']' then some (.arr [], r2)
              else
                match readItems fu (c2 :: r2) with
                | some (xs, r3) => some (.arr xs, r3)
                | none => none
      | '\x7b' :: r =>
          match dropWs r with
          | [] => none
          | c2 :: r2 =>
              if c2 = '\x7d' then some (.obj [], r2)
              else
                match readPairs fu (c2 :: r2) with
                | some (ps, r3) => some (.obj ps, r3)
                | none => none
      | c :: r =>
          if c = '-' || digitChar c then
            match readNum (c :: r) with
            | some (n, r2) => some (.num n, r2)
            | none => none
          else none
      | [] => none

/-- Read one or more comma-separated array elements and the closing bracket
(the empty array is handled before this is entered). -/
def readItems : Nat → List Char → Option (List JValue × List Char)
  | 0, _ => none
  | fu + 1, cs =>
      match readVal fu cs with
      | none => none
      | some (v, r) =>
          match dropWs r with
          | ',' :: r2 =>
              match readItems fu (dropWs r2) with
              | some (vs, r3) => some (v :: vs, r3)
              | none => none
          | ']' :: r2 => some ([v], r2)
          | _ => none

/-- Read one or more comma-separated object members and the closing brace
(the empty object is handled before this is entered). -/
def readPairs : Nat → List Char → Option (List (String × JValue) × List Char)
  | 0, _ => none
  | fu + 1, cs =>
      match dropWs cs with
      | '"' :: r =>
          match readStr r with
          | none => none
          | some (k, r1) =>
              match dropWs r1 with
              | ':' :: r2 =>
                  match readVal fu (dropWs r2) with
                  | none => none
                  | some (v, r3) =>
                      match dropWs r3 with
                      | ',' :: r4 =>
                          match readPairs fu (dropWs r4) with
                          | some (ps, r5) => some ((k, v) :: ps, r5)
                          | none => none
                      | '\x7d' :: r4 => some ([(k, v)], r4)
                      | _ => none
              | _ => none
      | _ => none
end

/-- Parse a complete document: the model of json.loads.  Succeeds exactly when
one value consumes the whole input up to whitespace. -/
def jsonLoads (s : String) : Option JValue :=
  match readVal (s.data.length + 1) s.data with
  | some (v, r) => if dropWs r = [] then some v else none
  | none => none

/-! ## Round-trip: the parser inverts the serialiser -/

/-- A remainder that cannot extend a serialised number: empty, or starting
with a character that is neither a digit nor a dot nor an exponent marker.
Every position a serialised value occupies inside a document satisfies it. -/
def numStop : List Char → Bool
  | [] => true
  | c :: _ => !(digitChar c || c = '.' || c = 'e' || c = 'E')

theorem digitSpec (k : Nat) (hk : k < 10) :
    (Char.ofNat (48 + k)).toNat = 48 + k ∧ digitChar (Char.ofNat (48 + k)) = true := by
  interval_cases k <;> exact ⟨by decide, by decide⟩

theorem natDigs_shift (n : Nat) : ∀ acc : List Char, natDigs n acc = natDigs n [] ++ acc := by
  induction n using Nat.strong_induction_on with
  | _ n ih =>
    intro acc
    by_cases h : n < 10
    · conv_lhs => rw [natDigs]
      conv_rhs => rw [natDigs]
      simp [h]
    · conv_lhs => rw [natDigs]
      conv_rhs => rw [natDigs]
      simp only [dif_neg h]
      rw [ih (n / 10) (Nat.div_lt_self (by omega) (by omega)) (Char.ofNat (48 + n % 10) :: acc),
        ih (n / 10) (Nat.div_lt_self (by omega) (by omega)) [Char.ofNat (48 + n % 10)],
        List.append_assoc]
      rfl

theorem natDigs_split (n : Nat) :
    natDigs n [] = (if n < 10 then [] else natDigs (n / 10) []) ++ [Char.ofNat (48 + n % 10)] := by
  rw [natDigs]
  by_cases h : n < 10
  · simp [h]
  · simp only [dif_neg h, if_neg h]
    exact natDigs_shift (n / 10) [Char.ofNat (48 + n % 10)]

theorem natDigs_notNil (n : Nat) : natDigs n [] ≠ [] := by
  rw [natDigs_split]
  simp

theorem natDigs_digits (n : Nat) : ∀ c ∈ natDigs n [], digitChar c = true := by
  induction n using Nat.strong_induction_on with
  | _ n ih =>
    intro c hc
    rw [natDigs_split, List.mem_append] at hc
    rcases hc with hc | hc
    · by_cases h : n < 10
      · simp [h] at hc
      · exact ih (n / 10) (Nat.div_lt_self (by omega) (by omega)) c (by simpa [h] using hc)
    · rw [List.mem_singleton] at hc
      subst hc
      exact (digitSpec (n % 10) (Nat.mod_lt _ (by omega))).2

theorem digsVal_natDigs (n : Nat) : digsVal (natDigs n []) = n := by
  induction n using Nat.strong_induction_on with
  | _ n ih =>
    rw [natDigs_split, digsVal, List.foldl_append]
    by_cases h : n < 10
    · simp only [if_pos h, List.foldl_nil, List.foldl_cons]
      rw [(digitSpec (n % 10) (Nat.mod_lt _ (by omega))).1]
      omega
    · simp only [if_neg h, List.foldl_cons, List.foldl_nil]
      have := ih (n / 10) (Nat.div_lt_self (by omega) (by omega))
      rw [digsVal] at this
      rw [this, (digitSpec (n % 10) (Nat.mod_lt _ (by omega))).1]
      omega

theorem grabDigits_stop {cs : List Char} (h : numStop cs = true) : grabDigits cs = ([], cs) := by
  match cs with
  | [] => rfl
  | c :: t =>
    simp only [numStop, Bool.not_eq_eq_eq_not, Bool.not_true, Bool.or_eq_false_iff] at h
    rw [grabDigits, if_neg (by simp [h.1.1.1])]

theorem grabDigits_notDigit {c : Char} {t : List Char} (h : digitChar c = false) :
    grabDigits (c :: t) = ([], c :: t) := by
  rw [grabDigits, if_neg (by simp [h])]

theorem grabDigits_run (ds : List Char) (hds : ∀ c ∈ ds, digitChar c = true)
    {rest : List Char} (hrest : grabDigits rest = ([], rest)) :
    grabDigits (ds ++ rest) = (ds, rest) := by
  induction ds with
  | nil => simpa using hrest
  | cons c t ih =>
    have hc : digitChar c = true := hds c (by simp)
    rw [List.cons_append, grabDigits, if_pos (by simp [hc])]
    rw [ih (fun x hx => hds x (by simp [hx]))]

theorem digit_ne_minus {c : Char} (h : digitChar c = true) : c ≠ '-' := by
  intro hc
  subst hc
  exact absurd h (by decide)

/-- The integer encoding round-trip: the number reader inverts `intChars` at
any remainder a document can put after a number. -/
theorem readNum_intChars (n : Int) (rest : List Char) (hr : numStop rest = true) :
    readNum (intChars n ++ rest) = some (n, rest) := by
  by_cases hn : n < 0
  · have harg : intChars n ++ rest = '-' :: (natDigs n.natAbs [] ++ rest) := by
      simp [intChars, hn]
    rw [harg, readNum,
      grabDigits_run _ (natDigs_digits n.natAbs) (grabDigits_stop hr)]
    have hne := natDigs_notNil n.natAbs
    match hd : natDigs n.natAbs [], hne with
    | c0 :: t0, _ =>
      simp only []
      have : digsVal (c0 :: t0) = n.natAbs := by rw [← hd, digsVal_natDigs]
      rw [this]
      congr 1
      congr 1
      omega
  · obtain ⟨c0, t0, hd⟩ : ∃ c0 t0, natDigs n.natAbs [] = c0 :: t0 := by
      match hd : natDigs n.natAbs [], natDigs_notNil n.natAbs with
      | c0 :: t0, _ => exact ⟨c0, t0, rfl⟩
    have hc0 : digitChar c0 = true := natDigs_digits n.natAbs c0 (hd ▸ List.mem_cons_self ..)
    have harg : intChars n ++ rest = c0 :: (t0 ++ rest) := by
      simp [intChars, hn, hd]
    rw [harg, readNum.eq_def]
    split
    · rename_i heq
      rw [List.cons.injEq] at heq
      exact absurd heq.1 (digit_ne_minus hc0)
    · have hgrab : grabDigits (c0 :: (t0 ++ rest)) = (c0 :: t0, rest) := by
        have := grabDigits_run (c0 :: t0) (fun x hx => natDigs_digits n.natAbs x (hd ▸ hx))
          (grabDigits_stop hr)
        rwa [List.cons_append] at this
      rw [hgrab]
      show some ((digsVal (c0 :: t0) : Int), rest) = some (n, rest)
      have hv : digsVal (c0 :: t0) = n.natAbs := by rw [← hd, digsVal_natDigs]
      rw [hv]
      have hcast : ((n.natAbs : Int)) = n := by omega
      rw [hcast]

/-- The string encoding round-trip: reading an escaped body recovers the
original characters up to the closing quote. -/
theorem readStr_enc (cs : List Char) : ∀ rest : List Char,
    readStr (cs.flatMap escChar ++ '"' :: rest) = some (String.mk cs, rest) := by
  induction cs with
  | nil => intro rest; rfl
  | cons c cs ih =>
    intro rest
    rw [List.flatMap_cons, List.append_assoc]
    by_cases h1 : c = '"'
    · subst h1; simp [escChar, readStr, readEsc, ih]
    · by_cases h2 : c = '\\'
      · subst h2; simp [escChar, readStr, readEsc, ih]
      · by_cases h3 : c = '\n'
        · subst h3; simp [escChar, readStr, readEsc, ih]
        · by_cases h4 : c = '\t'
          · subst h4; simp [escChar, readStr, readEsc, ih]
          · by_cases h5 : c = '\r'
            · subst h5; simp [escChar, readStr, readEsc, ih]
            · rw [show escChar c = [c] from by simp [escChar, h1, h2, h3, h4, h5]]
              rw [List.singleton_append]
              simp [readStr, h1, h2, ih]

/-- Characters that a serialised value can start with are never whitespace,
closers, separators or sign characters other than the minus of a number. -/
theorem digit_not_special {c : Char} (h : digitChar c = true) :
    wsChar c = false ∧ c ≠ 'n' ∧ c ≠ 't' ∧ c ≠ 'f' ∧ c ≠ '"' ∧ c ≠ '[' ∧ c ≠ '\x7b' ∧
      c ≠ ']' ∧ c ≠ '\x7d' ∧ c ≠ '-' ∧ c ≠ ',' ∧ c ≠ ':' := by
  refine ⟨?_, ?_, ?_, ?_, ?_, ?_, ?_, ?_, ?_, ?_, ?_, ?_⟩
  · simp only [wsChar, Bool.or_eq_false_iff, decide_eq_false_iff_not]
    refine ⟨⟨⟨?_, ?_⟩, ?_⟩, ?_⟩ <;> (intro hc; subst hc; exact absurd h (by decide))
  all_goals (intro hc; subst hc; exact absurd h (by decide))

theorem natDigs_headDigit (m : Nat) :
    ∃ c t, natDigs m [] = c :: t ∧ digitChar c = true := by
  match hd : natDigs m [], natDigs_notNil m with
  | c :: t, _ => exact ⟨c, t, rfl, natDigs_digits m c (hd ▸ List.mem_cons_self ..)⟩

/-- Packaging of a head character known to be harmless: not whitespace and
not a closer. -/
theorem headGood (c : Char) (t : List Char) (h1 : wsChar c = false) (h2 : c ≠ ']')
    (h3 : c ≠ '\x7d') :
    ∃ c2 t2, c :: t = c2 :: t2 ∧ wsChar c2 = false ∧ c2 ≠ ']' ∧ c2 ≠ '\x7d' :=
  ⟨c, t, rfl, h1, h2, h3⟩

/-- Every serialised value starts with a character that is not whitespace and
is not one of the two closers. -/
theorem dumpHead (v : JValue) :
    ∃ c t, dumpVal v = c :: t ∧ wsChar c = false ∧ c ≠ ']' ∧ c ≠ '\x7d' := by
  cases v with
  | null => exact headGood 'n' _ (by decide) (by decide) (by decide)
  | bool b =>
    cases b with
    | false => exact headGood 'f' _ (by decide) (by decide) (by decide)
    | true => exact headGood 't' _ (by decide) (by decide) (by decide)
  | str s => exact headGood '"' _ (by decide) (by decide) (by decide)
  | arr xs =>
    cases xs with
    | nil => exact headGood '[' _ (by decide) (by decide) (by decide)
    | cons x xs => exact headGood '[' _ (by decide) (by decide) (by decide)
  | obj ms =>
    cases ms with
    | nil => exact headGood '\x7b' _ (by decide) (by decide) (by decide)
    | cons m ms => exact headGood '\x7b' _ (by decide) (by decide) (by decide)
  | num n =>
    by_cases hn : n < 0
    · have ha : dumpVal (.num n) = '-' :: natDigs n.natAbs [] := by
        show intChars n = _
        simp [intChars, hn]
      rw [ha]
      exact headGood '-' _ (by decide) (by decide) (by decide)
    · obtain ⟨c, t, hc, hd⟩ := natDigs_headDigit n.natAbs
      have ha : dumpVal (.num n) = c :: t := by
        show intChars n = _
        simp [intChars, hn, hc]
      obtain ⟨hw, _, _, _, _, _, _, hbr, hbc, _, _, _⟩ := digit_not_special hd
      rw [ha]
      exact headGood c t hw hbr hbc

theorem dropWs_notWs {c : Char} {t : List Char} (h : wsChar c = false) :
    dropWs (c :: t) = c :: t := by
  rw [dropWs, if_neg (by simp [h])]

/-- Leading whitespace removal is the identity in front of a serialised
value. -/
theorem dropWs_dump (v : JValue) (x : List Char) :
    dropWs (dumpVal v ++ x) = dumpVal v ++ x := by
  obtain ⟨c, t, hv, hw, _, _⟩ := dumpHead v
  rw [hv, List.cons_append, dropWs_notWs hw]

theorem numStop_notDigit {cs : List Char} (h : numStop cs = true) :
    grabDigits cs = ([], cs) := grabDigits_stop h

/-- Leading whitespace removal is the identity in front of a serialised
object member. -/
theorem dropWs_entry (m : String × JValue) (x : List Char) :
    dropWs (dumpEntry m ++ x) = dumpEntry m ++ x := by
  obtain ⟨k, v⟩ := m
  show dropWs ((('"' :: (k.data.flatMap escChar ++ ['"'])) ++ (':' :: ' ' :: dumpVal v)) ++ x) = _
  rw [List.cons_append, List.cons_append, dropWs_notWs (by decide)]
  simp [dumpEntry, encStr, List.append_assoc]

theorem numStop_cons {c : Char} {t : List Char}
    (h : (digitChar c || c = '.' || c = 'e' || c = 'E') = false) :
    numStop (c :: t) = true := by
  simp only [numStop, h, Bool.not_false]

/-- One-step unfolding of the value reader at an opening bracket. -/
theorem readVal_arrUnfold (fu : Nat) (L : List Char) :
    readVal (fu + 1) ('[' :: L)
      = (match dropWs L with
         | [] => none
         | c2 :: r2 =>
             if c2 = ']' then some (.arr [], r2)
             else
               match readItems fu (c2 :: r2) with
               | some (xs, r3) => some (.arr xs, r3)
               | none => none) := rfl

/-- One-step unfolding of the value reader at an opening brace. -/
theorem readVal_objUnfold (fu : Nat) (L : List Char) :
    readVal (fu + 1) ('\x7b' :: L)
      = (match dropWs L with
         | [] => none
         | c2 :: r2 =>
             if c2 = '\x7d' then some (.obj [], r2)
             else
               match readPairs fu (c2 :: r2) with
               | some (ps, r3) => some (.obj ps, r3)
               | none => none) := rfl

/-- One-step unfolding of the value reader at an opening quote. -/
theorem readVal_strUnfold (fu : Nat) (L : List Char) :
    readVal (fu + 1) ('"' :: L)
      = (match readStr L with
         | some (s, r2) => some (.str s, r2)
         | none => none) := rfl

/-- One-step unfolding of the value reader at a minus sign. -/
theorem readVal_minusUnfold (fu : Nat) (L : List Char) :
    readVal (fu + 1) ('-' :: L)
      = (match readNum ('-' :: L) with
         | some (n, r2) => some (.num n, r2)
         | none => none) := rfl

/-- One-step unfolding of the element reader at successor fuel. -/
theorem readItems_step (fu : Nat) (cs : List Char) :
    readItems (fu + 1) cs
      = (match readVal fu cs with
         | none => none
         | some (v, r) =>
             match dropWs r with
             | ',' :: r2 =>
                 match readItems fu (dropWs r2) with
                 | some (vs, r3) => some (v :: vs, r3)
                 | none => none
             | ']' :: r2 => some ([v], r2)
             | _ => none) := rfl

/-- One-step unfolding of the member reader at successor fuel. -/
theorem readPairs_step (fu : Nat) (cs : List Char) :
    readPairs (fu + 1) cs
      = (match dropWs cs with
         | '"' :: r =>
             match readStr r with
             | none => none
             | some (k, r1) =>
                 match dropWs r1 with
                 | ':' :: r2 =>
                     match readVal fu (dropWs r2) with
                     | none => none
                     | some (v, r3) =>
                         match dropWs r3 with
                         | ',' :: r4 =>
                             match readPairs fu (dropWs r4) with
                             | some (ps, r5) => some ((k, v) :: ps, r5)
                             | none => none
                         | '\x7d' :: r4 => some ([(k, v)], r4)
                         | _ => none
                 | _ => none
         | _ => none) := rfl

/-- The value reader reduces to the number reader at a digit head. -/
theorem readVal_digit (fu : Nat) (c : Char) (t : List Char) (hc : digitChar c = true) :
    readVal (fu + 1) (c :: t)
      = (match readNum (c :: t) with
         | some (n, r2) => some (.num n, r2)
         | none => none) := by
  obtain ⟨hw, hn, ht, hf, hq, hbk, hbc, _, _, _, _, _⟩ := digit_not_special hc
  simp only [readVal]
  rw [dropWs_notWs hw]
  simp [hn, ht, hf, hq, hbk, hbc, hc]

/-- The value reader inverts the serialised form of an integer. -/
theorem readVal_num (n : Int) (f : Nat) (rest : List Char) (hr : numStop rest = true) :
    readVal (f + 1) (intChars n ++ rest) = some (.num n, rest) := by
  by_cases hn : n < 0
  · have ha : intChars n ++ rest = '-' :: (natDigs n.natAbs [] ++ rest) := by
      simp [intChars, hn]
    rw [ha, readVal_minusUnfold, ← ha, readNum_intChars n rest hr]
  · obtain ⟨c, t, hc, hd⟩ := natDigs_headDigit n.natAbs
    have ha : intChars n ++ rest = c :: (t ++ rest) := by
      simp [intChars, hn, hc]
    rw [ha, readVal_digit f c _ hd, ← ha, readNum_intChars n rest hr]

/-- The value reader inverts the serialised form of a string. -/
theorem readVal_str (s : String) (f : Nat) (rest : List Char) :
    readVal (f + 1) (encStr s ++ rest) = some (.str s, rest) := by
  have ha : encStr s ++ rest = '"' :: (s.data.flatMap escChar ++ '"' :: rest) := by
    simp [encStr]
  rw [ha, readVal_strUnfold, readStr_enc]

mutual
/-- Round-trip of one value: with enough fuel and any remainder that cannot
extend a number, reading a serialised value recovers it exactly. -/
theorem rtVal : ∀ (v : JValue) (fu : Nat) (rest : List Char),
    (dumpVal v).length < fu → numStop rest = true →
    readVal fu (dumpVal v ++ rest) = some (v, rest)
  | .null, fu, rest, hf, _ => by
      cases fu with
      | zero => exact absurd hf (Nat.not_lt_zero _)
      | succ f => rfl
  | .bool true, fu, rest, hf, _ => by
      cases fu with
      | zero => exact absurd hf (Nat.not_lt_zero _)
      | succ f => rfl
  | .bool false, fu, rest, hf, _ => by
      cases fu with
      | zero => exact absurd hf (Nat.not_lt_zero _)
      | succ f => rfl
  | .num n, fu, rest, hf, hr => by
      cases fu with
      | zero => exact absurd hf (Nat.not_lt_zero _)
      | succ f => exact readVal_num n f rest hr
  | .str s, fu, rest, hf, _ => by
      cases fu with
      | zero => exact absurd hf (Nat.not_lt_zero _)
      | succ f => exact readVal_str s f rest
  | .arr [], fu, rest, hf, _ => by
      cases fu with
      | zero => exact absurd hf (Nat.not_lt_zero _)
      | succ f => rfl
  | .arr (x :: xs), fu, rest, hf, _ => by
      cases fu with
      | zero => exact absurd hf (Nat.not_lt_zero _)
      | succ f =>
        have ha : dumpVal (.arr (x :: xs)) ++ rest
            = '[' :: (dumpVal x ++ (dumpMoreItems xs ++ ']' :: rest)) := by
          show ('[' :: (dumpVal x ++ dumpMoreItems xs ++ [']'])) ++ rest = _
          simp [List.append_assoc]
        obtain ⟨c, t, hx, hw, hbr, _⟩ := dumpHead x
        have hL : dropWs (dumpVal x ++ (dumpMoreItems xs ++ ']' :: rest))
            = c :: (t ++ (dumpMoreItems xs ++ ']' :: rest)) := by
          rw [dropWs_dump, hx, List.cons_append]
        have hlen : (dumpVal x).length + (dumpMoreItems xs).length + 1 < f := by
          have : (dumpVal (.arr (x :: xs))).length
              = (dumpVal x).length + (dumpMoreItems xs).length + 2 := by
            show ('[' :: (dumpVal x ++ dumpMoreItems xs ++ [']'])).length = _
            simp
            omega
          omega
        rw [ha, readVal_arrUnfold, hL]
        show (if c = ']' then some (JValue.arr [], t ++ (dumpMoreItems xs ++ ']' :: rest))
             else
               match readItems f (c :: (t ++ (dumpMoreItems xs ++ ']' :: rest))) with
               | some (ys, r3) => some (JValue.arr ys, r3)
               | none => none) = some (JValue.arr (x :: xs), rest)
        rw [if_neg hbr, ← List.cons_append, ← hx, rtItems x xs f rest hlen]
  | .obj [], fu, rest, hf, _ => by
      cases fu with
      | zero => exact absurd hf (Nat.not_lt_zero _)
      | succ f => rfl
  | .obj ((k, v) :: ms), fu, rest, hf, _ => by
      cases fu with
      | zero => exact absurd hf (Nat.not_lt_zero _)
      | succ f =>
        have ha : dumpVal (.obj ((k, v) :: ms)) ++ rest
            = '\x7b' :: (dumpEntry (k, v) ++ (dumpMoreEntries ms ++ '\x7d' :: rest)) := by
          show ('\x7b' :: (dumpEntry (k, v) ++ dumpMoreEntries ms ++ ['\x7d'])) ++ rest = _
          simp [List.append_assoc]
        have hL : dropWs (dumpEntry (k, v) ++ (dumpMoreEntries ms ++ '\x7d' :: rest))
            = '"' :: (k.data.flatMap escChar ++ '"' :: (':' :: ' ' :: (dumpVal v
                ++ (dumpMoreEntries ms ++ '\x7d' :: rest)))) := by
          show dropWs (('"' :: (k.data.flatMap escChar ++ ['"'])
              ++ ':' :: ' ' :: dumpVal v) ++ (dumpMoreEntries ms ++ '\x7d' :: rest)) = _
          rw [List.cons_append, List.cons_append, dropWs_notWs (by decide)]
          simp [List.append_assoc]
        have hlen : (dumpEntry (k, v)).length + (dumpMoreEntries ms).length + 1 < f := by
          have : (dumpVal (.obj ((k, v) :: ms))).length
              = (dumpEntry (k, v)).length + (dumpMoreEntries ms).length + 2 := by
            show ('\x7b' :: (dumpEntry (k, v) ++ dumpMoreEntries ms ++ ['\x7d'])).length = _
            simp
            omega
          omega
        rw [ha, readVal_objUnfold, hL]
        show (if ('"' : Char) = '\x7d'
             then some (JValue.obj [], k.data.flatMap escChar ++ '"' :: (':' :: ' ' :: (dumpVal v
                 ++ (dumpMoreEntries ms ++ '\x7d' :: rest))))
             else
               match readPairs f ('"' :: (k.data.flatMap escChar ++ '"' :: (':' :: ' ' :: (dumpVal v
                   ++ (dumpMoreEntries ms ++ '\x7d' :: rest))))) with
               | some (ps, r3) => some (JValue.obj ps, r3)
               | none => none) = some (JValue.obj ((k, v) :: ms), rest)
        rw [if_neg (by decide)]
        have hfold : '"' :: (k.data.flatMap escChar ++ '"' :: (':' :: ' ' :: (dumpVal v
              ++ (dumpMoreEntries ms ++ '\x7d' :: rest))))
            = dumpEntry (k, v) ++ (dumpMoreEntries ms ++ '\x7d' :: rest) := by
          show _ = ('"' :: (k.data.flatMap escChar ++ ['"'])
              ++ ':' :: ' ' :: dumpVal v) ++ (dumpMoreEntries ms ++ '\x7d' :: rest)
          simp [List.append_assoc]
        rw [hfold, rtPairs (k, v) ms f rest hlen]
  termination_by v _ _ _ _ => sizeOf v

/-- Round-trip of a nonempty comma-separated element list followed by the
closing bracket. -/
theorem rtItems : ∀ (x : JValue) (xs : List JValue) (fu : Nat) (rest : List Char),
    (dumpVal x).length + (dumpMoreItems xs).length + 1 < fu →
    readItems fu (dumpVal x ++ (dumpMoreItems xs ++ ']' :: rest)) = some (x :: xs, rest)
  | x, [], fu, rest, hf => by
      cases fu with
      | zero => exact absurd hf (Nat.not_lt_zero _)
      | succ g =>
        have hlx : (dumpVal x).length < g := by
          simp only [dumpMoreItems, List.length_nil] at hf
          omega
        rw [readItems_step]
        have ha : dumpVal x ++ (dumpMoreItems [] ++ ']' :: rest) = dumpVal x ++ ']' :: rest := by
          simp [dumpMoreItems]
        rw [ha, rtVal x g (']' :: rest) hlx (numStop_cons (by decide))]
        rfl
  | x, y :: ys, fu, rest, hf => by
      cases fu with
      | zero => exact absurd hf (Nat.not_lt_zero _)
      | succ g =>
        have hlx : (dumpVal x).length < g := by
          simp only [dumpMoreItems, List.length_cons, List.length_append] at hf
          omega
        have hly : (dumpVal y).length + (dumpMoreItems ys).length + 1 < g := by
          simp only [dumpMoreItems, List.length_cons, List.length_append] at hf
          omega
        rw [readItems_step]
        have ha : dumpVal x ++ (dumpMoreItems (y :: ys) ++ ']' :: rest)
            = dumpVal x ++ ',' :: ' ' :: (dumpVal y ++ (dumpMoreItems ys ++ ']' :: rest)) := by
          show dumpVal x ++ ((',' :: ' ' :: (dumpVal y ++ dumpMoreItems ys)) ++ ']' :: rest) = _
          simp [List.append_assoc]
        rw [ha, rtVal x g _ hlx (numStop_cons (by decide))]
        show (match dropWs (',' :: ' ' :: (dumpVal y ++ (dumpMoreItems ys ++ ']' :: rest))) with
             | ',' :: r2 =>
                 match readItems g (dropWs r2) with
                 | some (vs, r3) => some (x :: vs, r3)
                 | none => none
             | ']' :: r2 => some ([x], r2)
             | _ => none) = some (x :: y :: ys, rest)
        rw [dropWs_notWs (by decide)]
        show (match readItems g (dropWs (' ' :: (dumpVal y ++ (dumpMoreItems ys ++ ']' :: rest)))) with
             | some (vs, r3) => some (x :: vs, r3)
             | none => none) = some (x :: y :: ys, rest)
        have hws : dropWs (' ' :: (dumpVal y ++ (dumpMoreItems ys ++ ']' :: rest)))
            = dumpVal y ++ (dumpMoreItems ys ++ ']' :: rest) := by
          rw [dropWs, if_pos (by decide), dropWs_dump]
        rw [hws, rtItems y ys g rest hly]
  termination_by x xs _ _ _ => sizeOf x + sizeOf xs

/-- Round-trip of a nonempty comma-separated member list followed by the
closing brace. -/
theorem rtPairs : ∀ (m : String × JValue) (ms : List (String × JValue)) (fu : Nat)
    (rest : List Char),
    (dumpEntry m).length + (dumpMoreEntries ms).length + 1 < fu →
    readPairs fu (dumpEntry m ++ (dumpMoreEntries ms ++ '\x7d' :: rest)) = some (m :: ms, rest)
  | (k, v), [], fu, rest, hf => by
      cases fu with
      | zero => exact absurd hf (Nat.not_lt_zero _)
      | succ g =>
        have hlv : (dumpVal v).length < g := by
          simp only [dumpEntry, dumpMoreEntries, List.length_nil, List.length_append,
            List.length_cons] at hf
          omega
        rw [readPairs_step]
        have ha : dumpEntry (k, v) ++ (dumpMoreEntries [] ++ '\x7d' :: rest)
            = '"' :: (k.data.flatMap escChar ++ '"' :: (':' :: ' ' :: (dumpVal v ++ '\x7d' :: rest))) := by
          show (('"' :: (k.data.flatMap escChar ++ ['"']))
              ++ ':' :: ' ' :: dumpVal v) ++ ([] ++ '\x7d' :: rest) = _
          simp [List.append_assoc]
        rw [ha]
        show (match readStr (k.data.flatMap escChar
                ++ '"' :: (':' :: ' ' :: (dumpVal v ++ '\x7d' :: rest))) with
             | none => none
             | some (key, r1) =>
                 match dropWs r1 with
                 | ':' :: r2 =>
                     match readVal g (dropWs r2) with
                     | none => none
                     | some (v2, r3) =>
                         match dropWs r3 with
                         | ',' :: r4 =>
                             match readPairs g (dropWs r4) with
                             | some (ps, r5) => some ((key, v2) :: ps, r5)
                             | none => none
                         | '\x7d' :: r4 => some ([(key, v2)], r4)
                         | _ => none
                 | _ => none) = some ([(k, v)], rest)
        rw [readStr_enc]
        show (match readVal g (dropWs (' ' :: (dumpVal v ++ '\x7d' :: rest))) with
             | none => none
             | some (v2, r3) =>
                 match dropWs r3 with
                 | ',' :: r4 =>
                     match readPairs g (dropWs r4) with
                     | some (ps, r5) => some ((String.mk k.data, v2) :: ps, r5)
                     | none => none
                 | '\x7d' :: r4 => some ([(String.mk k.data, v2)], r4)
                 | _ => none) = some ([(k, v)], rest)
        have hws : dropWs (' ' :: (dumpVal v ++ '\x7d' :: rest)) = dumpVal v ++ '\x7d' :: rest := by
          rw [dropWs, if_pos (by decide), dropWs_dump]
        rw [hws, rtVal v g ('\x7d' :: rest) hlv (numStop_cons (by decide))]
        rfl
  | (k, v), m2 :: ms, fu, rest, hf => by
      cases fu with
      | zero => exact absurd hf (Nat.not_lt_zero _)
      | succ g =>
        have hlv : (dumpVal v).length < g := by
          simp only [dumpEntry, dumpMoreEntries, List.length_append, List.length_cons] at hf
          omega
        have hlm : (dumpEntry m2).length + (dumpMoreEntries ms).length + 1 < g := by
          simp only [dumpEntry, dumpMoreEntries, List.length_append, List.length_cons] at hf
          omega
        rw [readPairs_step]
        have ha : dumpEntry (k, v) ++ (dumpMoreEntries (m2 :: ms) ++ '\x7d' :: rest)
            = '"' :: (k.data.flatMap escChar ++ '"' :: (':' :: ' ' :: (dumpVal v
                ++ ',' :: ' ' :: (dumpEntry m2 ++ (dumpMoreEntries ms ++ '\x7d' :: rest))))) := by
          show (('"' :: (k.data.flatMap escChar ++ ['"'])) ++ ':' :: ' ' :: dumpVal v)
              ++ ((',' :: ' ' :: (dumpEntry m2 ++ dumpMoreEntries ms)) ++ '\x7d' :: rest) = _
          simp [List.append_assoc]
        rw [ha]
        show (match readStr (k.data.flatMap escChar ++ '"' :: (':' :: ' ' :: (dumpVal v
                ++ ',' :: ' ' :: (dumpEntry m2 ++ (dumpMoreEntries ms ++ '\x7d' :: rest))))) with
             | none => none
             | some (key, r1) =>
                 match dropWs r1 with
                 | ':' :: r2 =>
                     match readVal g (dropWs r2) with
                     | none => none
                     | some (v2, r3) =>
                         match dropWs r3 with
                         | ',' :: r4 =>
                             match readPairs g (dropWs r4) with
                             | some (ps, r5) => some ((key, v2) :: ps, r5)
                             | none => none
                         | '\x7d' :: r4 => some ([(key, v2)], r4)
                         | _ => none
                 | _ => none) = some ((k, v) :: m2 :: ms, rest)
        rw [readStr_enc]
        show (match readVal g (dropWs (' ' :: (dumpVal v
                ++ ',' :: ' ' :: (dumpEntry m2 ++ (dumpMoreEntries ms ++ '\x7d' :: rest))))) with
             | none => none
             | some (v2, r3) =>
                 match dropWs r3 with
                 | ',' :: r4 =>
                     match readPairs g (dropWs r4) with
                     | some (ps, r5) => some ((String.mk k.data, v2) :: ps, r5)
                     | none => none
                 | '\x7d' :: r4 => some ([(String.mk k.data, v2)], r4)
                 | _ => none) = some ((k, v) :: m2 :: ms, rest)
        have hws : dropWs (' ' :: (dumpVal v
              ++ ',' :: ' ' :: (dumpEntry m2 ++ (dumpMoreEntries ms ++ '\x7d' :: rest))))
            = dumpVal v ++ ',' :: ' ' :: (dumpEntry m2 ++ (dumpMoreEntries ms ++ '\x7d' :: rest)) := by
          rw [dropWs, if_pos (by decide), dropWs_dump]
        rw [hws, rtVal v g _ hlv (numStop_cons (by decide))]
        show (match readPairs g (dropWs (' ' :: (dumpEntry m2
                ++ (dumpMoreEntries ms ++ '\x7d' :: rest)))) with
             | some (ps, r5) => some ((String.mk k.data, v) :: ps, r5)
             | none => none) = some ((k, v) :: m2 :: ms, rest)
        have hws2 : dropWs (' ' :: (dumpEntry m2 ++ (dumpMoreEntries ms ++ '\x7d' :: rest)))
            = dumpEntry m2 ++ (dumpMoreEntries ms ++ '\x7d' :: rest) := by
          rw [dropWs, if_pos (by decide)]
          exact dropWs_entry m2 _
        rw [hws2, rtPairs m2 ms g rest hlm]
  termination_by m ms _ _ _ => sizeOf m + sizeOf ms
end

/-- Full JSON codec round-trip: parsing a serialised value recovers it. -/
theorem jsonLoads_jsonDumps (v : JValue) : jsonLoads (jsonDumps v) = some v := by
  have hv := rtVal v ((dumpVal v).length + 1) [] (by omega) rfl
  rw [List.append_nil] at hv
  rw [jsonLoads]
  show (match readVal ((dumpVal v).length + 1) (dumpVal v) with
       | some (w, r) => if dropWs r = [] then some w else none
       | none => none) = some v
  rw [hv]
  rfl

/-! ## Argument normalisation (src/olama_mcp_host.py, normalize_tool_arguments)

A raw argument payload attached to a tool call request.  The source receives
an arbitrary Python value here and branches on its runtime type; the payload
type records exactly the distinctions those branches observe. -/

/-- The raw argument payload of a tool call request:
None (or an absent arguments key), a JSON-encoded string, an already keyed
structure, or any other value, abstracted by the outcome of the dict
conversion the final branch of the source applies to it (`some kvs` when the
value converts to a keyed set, `none` when the conversion raises). -/
inductive Payload where
  | pynone
  | str (s : String)
  | dict (kvs : List (String × JValue))
  | other (asDict : Option (List (String × JValue)))

/-- Failure of argument normalisation: the MalformedArgumentsError of the
specification (a json.JSONDecodeError or TypeError in the source). -/
inductive ArgError where
  | malformed

/-- Model of normalize_tool_arguments: None becomes the empty keyed set, a
string is decoded as JSON (failing exactly when decoding fails), a keyed
structure passes through unchanged, and anything else goes through the dict
conversion.  The branch order mirrors the source. -/
def normalize_tool_arguments : Payload → Except ArgError JValue
  | .pynone => .ok (.obj [])
  | .str s =>
      match jsonLoads s with
      | some v => .ok v
      | none => .error .malformed
  | .dict kvs => .ok (.obj kvs)
  | .other (some kvs) => .ok (.obj kvs)
  | .other none => .error .malformed

/-- Renormalisation of a keyed result: when normalisation yields a keyed set,
feed it back through normalisation as the keyed payload it would arrive as.
Used to state idempotence on already-keyed input. -/
def renormalizeKeyed (p : Payload) : Except ArgError JValue :=
  match normalize_tool_arguments p with
  | .ok (.obj kvs) => normalize_tool_arguments (.dict kvs)
  | r => r

/-! ## Result encoding (src/olama_mcp_host.py, tool_result_content_to_json_string) -/

/-- One content block of a tool call result, as the source distinguishes
them: a block carrying a model_dump method (a pydantic block, dumping to the
recorded keyed data), a block carrying only a text attribute, or any other
block, abstracted by its string representation. -/
inductive Block where
  | modelDump (v : JValue)
  | textAttr (t : String)
  | strRepr (s : String)

/-- The payload of a tool call result: None, a scalar, a sequence of content
blocks, a keyed structure, or anything else abstracted by its string
representation.  Floating point scalars are outside the model; they take the
same branch as integers in the source. -/
inductive ToolContent where
  | pynone
  | text (s : String)
  | int (n : Int)
  | bool (b : Bool)
  | blocks (bs : List Block)
  | keyed (kvs : List (String × JValue))
  | other (s : String)

/-- The JSON value one content block contributes to the encoded sequence. -/
def blockPart : Block → JValue
  | .modelDump v => v
  | .textAttr t => .obj [("type", .str "text"), ("text", .str t)]
  | .strRepr s => .str s

/-- Model of tool_result_content_to_json_string: None becomes the literal
empty-object string, scalars are dumped directly, a block sequence is encoded
elementwise in order and dumped as an array, keyed data is dumped as-is, and
anything else is dumped as the string representation.  The branch order
mirrors the source. -/
def tool_result_content_to_json_string : ToolContent → String
  | .pynone => "\x7b\x7d"
  | .text s => jsonDumps (.str s)
  | .int n => jsonDumps (.num n)
  | .bool b => jsonDumps (.bool b)
  | .blocks bs => jsonDumps (.arr (bs.map blockPart))
  | .keyed kvs => jsonDumps (.obj kvs)
  | .other s => jsonDumps (.str s)

/-! ## Tool registry adaptation (src/olama_mcp_host.py, mcp_tools_to_ollama_tools) -/

/-- One tool descriptor of the list_tools response: name, optional
description and optional input schema (the source applies Python `or`
defaulting to both, so an empty string or empty schema counts as absent). -/
structure ToolDescriptor where
  name : String
  description : Option String
  inputSchema : Option (List (String × JValue))

/-- The list_tools response the adapter receives. -/
structure ListToolsResult where
  tools : List ToolDescriptor

/-- The function declaration inside one adapted tool entry. -/
structure OllamaFunctionDecl where
  name : String
  description : String
  parameters : List (String × JValue)

/-- One adapted tool entry: the constant tag "function" plus the function
declaration (the source builds the dict with keys type and function). -/
structure OllamaToolDecl where
  tag : String
  function : OllamaFunctionDecl

/-- Python `or` on an optional string: the default wins when the value is
absent or empty. -/
def pyOrString (x : Option String) (dflt : String) : String :=
  match x with
  | none => dflt
  | some s => if s = "" then dflt else s

/-- The minimal empty-object schema the adapter substitutes. -/
def emptyObjectSchema : List (String × JValue) :=
  [("type", .str "object"), ("properties", .obj [])]

/-- Python `or` on an optional schema: the empty-object schema wins when the
value is absent or the empty keyed set. -/
def pyOrSchema (x : Option (List (String × JValue))) : List (String × JValue) :=
  match x with
  | none => emptyObjectSchema
  | some [] => emptyObjectSchema
  | some s => s

/-- Model of mcp_tools_to_ollama_tools: one output entry per descriptor, in
order, tagged "function", with the name preserved and the two defaulting
rules above. -/
def mcp_tools_to_ollama_tools (resp : ListToolsResult) : List OllamaToolDecl :=
  resp.tools.map (fun t =>
    { tag := "function"
      function :=
        { name := t.name
          description := pyOrString t.description ""
          parameters := pyOrSchema t.inputSchema } })

/-! ## The turn orchestrator (src/olama_mcp_host.py, run_chat_turn) -/

/-- The function object inside one tool call request: the optional name and
the raw argument payload (`Payload.pynone` models an absent arguments key,
exactly as fn.get returns None for it). -/
structure ToolFunctionCall where
  name : Option String
  arguments : Payload

/-- One tool call request as the model emits it.  An absent function key
behaves as an empty dict in the source (tc.get with an empty default), which
the accessor `fnOf` reproduces. -/
structure ToolCallRequest where
  function : Option ToolFunctionCall

/-- The function object of a request, with the empty-dict default of the
source: no name, no arguments. -/
def fnOf (tc : ToolCallRequest) : ToolFunctionCall :=
  tc.function.getD ⟨none, .pynone⟩

/-- Python falsiness of an optional string: absent or empty.  The source
skips a tool call whose name is falsy. -/
def pyFalsyStr : Option String → Bool
  | none => true
  | some s => s = ""

/-- ASCII whitespace as the Python strip call recognises it (the unicode
space classes it also strips are outside the model). -/
def pyWsChar (c : Char) : Bool :=
  c = ' ' || c = '\t' || c = '\n' || c = '\r' || c = Char.ofNat 11 || c = Char.ofNat 12

/-- Remove leading whitespace characters. -/
def stripFront : List Char → List Char
  | c :: cs => if pyWsChar c then stripFront cs else c :: cs
  | [] => []

/-- Model of the Python strip call: remove whitespace from both ends. -/
def pyStrip (s : String) : String :=
  String.mk ((stripFront (stripFront s.data).reverse).reverse)

/-- One conversation message: role, optional content, optional tool call
list (assistant messages), optional tool name (tool messages). -/
structure ChatMessage where
  role : String
  content : Option String
  tool_calls : Option (List ToolCallRequest)
  name : Option String

/-- The result object a tool host call returns; the source reads its content
attribute. -/
structure MCPCallResult where
  content : ToolContent

/-- The tool host boundary: one synchronous invocation of a named tool with
normalized arguments, which either returns a result or raises (the
ToolInvocationError of the specification). -/
def ToolHost : Type := String → JValue → Except Unit MCPCallResult

/-- The model backend boundary: the message object of the response to the
i-th model invocation of the turn (an absent message key behaves as an empty
message, as resp.get with an empty default does in the source). -/
def ModelBackend : Type := Nat → ChatMessage

/-- Why a turn aborts: argument normalisation failed (MalformedArgumentsError)
or the tool host raised (ToolInvocationError). -/
inductive TurnError where
  | malformedArguments
  | toolInvocation

/-- The observable state of one turn: the conversation (which the source
mutates in place), the tool host invocations performed so far in order, and
the number of model invocations made so far. -/
structure TurnState where
  messages : List ChatMessage
  trace : List (String × JValue)
  modelCalls : Nat

/-- The tool-role message appended after a successful tool invocation,
carrying the tool name and the encoded result content. -/
def toolMessage (toolName : String) (res : MCPCallResult) : ChatMessage :=
  { role := "tool"
    content := some (tool_result_content_to_json_string res.content)
    tool_calls := none
    name := some toolName }

/-- The inner loop of one step: process the requested tool calls in order.
For each request the source normalizes the arguments first (so a malformed
payload aborts even on a nameless request), skips the request when the name
is falsy, and otherwise invokes the tool host and appends the tool-role
message.  An error carries the state at the moment of the abort, since the
source mutates the conversation in place. -/
def runToolCalls (host : ToolHost) :
    List ToolCallRequest → TurnState → Except (TurnError × TurnState) TurnState
  | [], st => .ok st
  | tc :: rest, st =>
      match normalize_tool_arguments (fnOf tc).arguments with
      | .error _ => .error (.malformedArguments, st)
      | .ok args =>
          if pyFalsyStr (fnOf tc).name then runToolCalls host rest st
          else
            let toolName := (fnOf tc).name.getD ""
            match host toolName args with
            | .error _ => .error (.toolInvocation, st)
            | .ok res =>
                runToolCalls host rest
                  { st with
                    messages := st.messages ++ [toolMessage toolName res]
                    trace := st.trace ++ [(toolName, args)] }

/-- The step ceiling of the orchestration loop (the range bound in the
source). -/
def MAX_STEPS : Nat := 20

/-- The orchestration loop of run_chat_turn, structurally on the remaining
step budget.  Each iteration invokes the model, and either returns the
trimmed content (with the placeholder for empty content) when the response
carries no tool calls, or appends the assistant message, processes the tool
calls in order, and continues.  Exhausting the budget returns the fixed
fallback string. -/
def runChatTurnLoop (model : ModelBackend) (host : ToolHost) :
    Nat → TurnState → Except (TurnError × TurnState) (String × TurnState)
  | 0, st => .ok ("(stopped after too many tool steps)", st)
  | fuel + 1, st =>
      let msg := model st.modelCalls
      let st1 : TurnState := { st with modelCalls := st.modelCalls + 1 }
      let toolCalls := msg.tool_calls.getD []
      let content := pyStrip (msg.content.getD "")
      if toolCalls.isEmpty then
        .ok ((if content = "" then "(no content)" else content), st1)
      else
        match runToolCalls host toolCalls
            { st1 with messages := st1.messages ++ [msg] } with
        | .error e => .error e
        | .ok st2 => runChatTurnLoop model host fuel st2

/-- Model of run_chat_turn: run the loop for MAX_STEPS steps from the given
conversation, with no tool invocations and no model calls made yet. -/
def run_chat_turn (model : ModelBackend) (host : ToolHost) (messages : List ChatMessage) :
    Except (TurnError × TurnState) (String × TurnState) :=
  runChatTurnLoop model host MAX_STEPS ⟨messages, [], 0⟩

/-- Whether processing one request aborts the turn: its arguments fail to
normalize, or it has a truthy name and the tool host raises on it. -/
def callAborts (host : ToolHost) (tc : ToolCallRequest) : Bool :=
  match normalize_tool_arguments (fnOf tc).arguments with
  | .error _ => true
  | .ok args =>
      if pyFalsyStr (fnOf tc).name then false
      else
        match host ((fnOf tc).name.getD "") args with
        | .error _ => true
        | .ok _ => false

/-- The tool-role message one request contributes when it does not abort the
turn: none for a skipped nameless request, the encoded result otherwise. -/
def plannedToolMsg (host : ToolHost) (tc : ToolCallRequest) : Option ChatMessage :=
  match normalize_tool_arguments (fnOf tc).arguments with
  | .error _ => none
  | .ok args =>
      if pyFalsyStr (fnOf tc).name then none
      else
        match host ((fnOf tc).name.getD "") args with
        | .error _ => none
        | .ok res => some (toolMessage ((fnOf tc).name.getD "") res)

/-- The tool host invocation one request contributes when it does not abort
the turn: none for a skipped nameless request. -/
def plannedInvocation (host : ToolHost) (tc : ToolCallRequest) : Option (String × JValue) :=
  match normalize_tool_arguments (fnOf tc).arguments with
  | .error _ => none
  | .ok args =>
      if pyFalsyStr (fnOf tc).name then none
      else
        match host ((fnOf tc).name.getD "") args with
        | .error _ => none
        | .ok _ => some ((fnOf tc).name.getD "", args)

/-! ## Pantry storage (src/recipe_mcp/storage.py) -/

/-- One pantry item (the qty field of the source is a float; it is modelled
as an integer, which no property here depends on). -/
structure PantryItem where
  name : String
  qty : Option Int
  unit : Option String
  expires : Option String

/-- The rows of the pantry table: primary key (the lower-cased name) paired
with the stored item. -/
def Pantry : Type := List (String × PantryItem)

/-- ASCII lower-casing, modelling the Python lower call on the names the
claims range over. -/
def pyLower (s : String) : String := String.mk (s.data.map Char.toLower)

/-- Model of SqliteStore.upsert_pantry_item: INSERT OR REPLACE keyed by the
lower-cased item name, which deletes any row with the same primary key and
inserts the new row. -/
def upsert_pantry_item (db : Pantry) (item : PantryItem) : Pantry :=
  db.filter (fun r => r.1 ≠ pyLower item.name) ++ [(pyLower item.name, item)]

/-- Model of SqliteStore.remove_pantry_item: DELETE keyed by the lower-cased
name; the returned flag is the rowcount test of the source (true exactly when
a row was deleted). -/
def remove_pantry_item (db : Pantry) (item_name : String) : Pantry × Bool :=
  (db.filter (fun r => r.1 ≠ pyLower item_name),
   db.any (fun r => r.1 = pyLower item_name))

/-! ## Orchestrator lemmas -/

theorem length_filterMap_allSome {α β : Type} (f : α → Option β) :
    ∀ l : List α, (∀ a ∈ l, (f a).isSome) → (l.filterMap f).length = l.length := by
  intro l
  induction l with
  | nil => intro _; rfl
  | cons a t ih =>
    intro h
    have ha : (f a).isSome := h a (by simp)
    match hf : f a with
    | some b =>
      rw [List.filterMap_cons, hf, List.length_cons, List.length_cons,
        ih (fun x hx => h x (by simp [hx]))]
    | none => rw [hf] at ha; exact absurd ha (by simp)

/-- Processing a request list none of which aborts succeeds, appends exactly
the planned tool messages and planned invocations in order, and leaves the
model call count unchanged. -/
theorem runToolCalls_ok (host : ToolHost) :
    ∀ (tcs : List ToolCallRequest) (st : TurnState),
    (∀ tc ∈ tcs, callAborts host tc = false) →
    runToolCalls host tcs st
      = .ok ⟨st.messages ++ tcs.filterMap (plannedToolMsg host),
             st.trace ++ tcs.filterMap (plannedInvocation host),
             st.modelCalls⟩ := by
  intro tcs
  induction tcs with
  | nil =>
    intro st _
    simp [runToolCalls, List.filterMap_nil]
  | cons tc rest ih =>
    intro st h
    have htc : callAborts host tc = false := h tc (by simp)
    have hrest : ∀ tc2 ∈ rest, callAborts host tc2 = false :=
      fun tc2 hx => h tc2 (by simp [hx])
    match hn : normalize_tool_arguments (fnOf tc).arguments with
    | .error e =>
      simp [callAborts, hn] at htc
    | .ok args =>
      by_cases hfalsy : pyFalsyStr (fnOf tc).name = true
      · have hm : plannedToolMsg host tc = none := by
          simp [plannedToolMsg, hn, hfalsy]
        have hi : plannedInvocation host tc = none := by
          simp [plannedInvocation, hn, hfalsy]
        simp only [runToolCalls, hn, hfalsy, if_true, List.filterMap_cons, hm, hi]
        exact ih st hrest
      · rw [Bool.not_eq_true] at hfalsy
        simp only [callAborts, hn, hfalsy, Bool.false_eq_true, if_false] at htc
        match hh : host ((fnOf tc).name.getD "") args with
        | .error e => simp [hh] at htc
        | .ok res =>
          have hm : plannedToolMsg host tc
              = some (toolMessage ((fnOf tc).name.getD "") res) := by
            simp [plannedToolMsg, hn, hfalsy, hh]
          have hi : plannedInvocation host tc = some ((fnOf tc).name.getD "", args) := by
            simp [plannedInvocation, hn, hfalsy, hh]
          simp only [runToolCalls, hn, hfalsy, Bool.false_eq_true, if_false, hh,
            List.filterMap_cons, hm, hi]
          rw [ih _ hrest]
          simp [List.append_assoc]

/-- Processing a request list whose first aborting call is a tool host
failure stops exactly there with a tool invocation error: the state retains
everything appended for the calls before it and nothing for it or the calls
after it. -/
theorem runToolCalls_hostFail (host : ToolHost) :
    ∀ (pre : List ToolCallRequest) (tc : ToolCallRequest) (post : List ToolCallRequest)
      (st : TurnState) (args : JValue),
    (∀ tc2 ∈ pre, callAborts host tc2 = false) →
    normalize_tool_arguments (fnOf tc).arguments = .ok args →
    pyFalsyStr (fnOf tc).name = false →
    host ((fnOf tc).name.getD "") args = .error () →
    runToolCalls host (pre ++ tc :: post) st
      = .error (.toolInvocation,
          ⟨st.messages ++ pre.filterMap (plannedToolMsg host),
           st.trace ++ pre.filterMap (plannedInvocation host),
           st.modelCalls⟩) := by
  intro pre
  induction pre with
  | nil =>
    intro tc post st args _ hn hfalsy hh
    simp only [List.nil_append, runToolCalls, hn, hfalsy, Bool.false_eq_true, if_false, hh,
      List.filterMap_nil, List.append_nil]
  | cons p rest ih =>
    intro tc post st args h hn hfalsy hh
    have hp : callAborts host p = false := h p (by simp)
    have hrest : ∀ tc2 ∈ rest, callAborts host tc2 = false :=
      fun tc2 hx => h tc2 (by simp [hx])
    rw [List.cons_append]
    match hpn : normalize_tool_arguments (fnOf p).arguments with
    | .error e =>
      simp [callAborts, hpn] at hp
    | .ok pargs =>
      by_cases hpf : pyFalsyStr (fnOf p).name = true
      · have hm : plannedToolMsg host p = none := by
          simp [plannedToolMsg, hpn, hpf]
        have hi : plannedInvocation host p = none := by
          simp [plannedInvocation, hpn, hpf]
        simp only [runToolCalls, hpn, hpf, if_true, List.filterMap_cons, hm, hi]
        exact ih tc post st args hrest hn hfalsy hh
      · rw [Bool.not_eq_true] at hpf
        simp only [callAborts, hpn, hpf, Bool.false_eq_true, if_false] at hp
        match hph : host ((fnOf p).name.getD "") pargs with
        | .error e => simp [hph] at hp
        | .ok res =>
          have hm : plannedToolMsg host p
              = some (toolMessage ((fnOf p).name.getD "") res) := by
            simp [plannedToolMsg, hpn, hpf, hph]
          have hi : plannedInvocation host p = some ((fnOf p).name.getD "", pargs) := by
            simp [plannedInvocation, hpn, hpf, hph]
          simp only [runToolCalls, hpn, hpf, Bool.false_eq_true, if_false, hph,
            List.filterMap_cons, hm, hi]
          rw [ih tc post _ args hrest hn hfalsy hh]
          simp [List.append_assoc]

/-- Processing tool calls never changes the model call count, whether it
succeeds or aborts. -/
theorem runToolCalls_modelCalls (host : ToolHost) :
    ∀ (tcs : List ToolCallRequest) (st : TurnState),
    (∀ st2, runToolCalls host tcs st = .ok st2 → st2.modelCalls = st.modelCalls) ∧
    (∀ e st2, runToolCalls host tcs st = .error (e, st2) → st2.modelCalls = st.modelCalls) := by
  intro tcs
  induction tcs with
  | nil =>
    intro st
    constructor
    · intro st2 h
      rw [runToolCalls] at h
      cases h
      rfl
    · intro e st2 h
      rw [runToolCalls] at h
      cases h
  | cons tc rest ih =>
    intro st
    have expand : ∀ (P : Except (TurnError × TurnState) TurnState → Prop),
        (∀ args, normalize_tool_arguments (fnOf tc).arguments = .ok args →
          pyFalsyStr (fnOf tc).name = true → P (runToolCalls host rest st)) →
        (∀ args res, normalize_tool_arguments (fnOf tc).arguments = .ok args →
          pyFalsyStr (fnOf tc).name = false →
          host ((fnOf tc).name.getD "") args = .ok res →
          P (runToolCalls host rest
            { st with
              messages := st.messages ++ [toolMessage ((fnOf tc).name.getD "") res]
              trace := st.trace ++ [((fnOf tc).name.getD "", args)] })) →
        (∀ e0, normalize_tool_arguments (fnOf tc).arguments = .error e0 →
          P (.error (.malformedArguments, st))) →
        (∀ args, normalize_tool_arguments (fnOf tc).arguments = .ok args →
          pyFalsyStr (fnOf tc).name = false →
          host ((fnOf tc).name.getD "") args = .error () →
          P (.error (.toolInvocation, st))) →
        P (runToolCalls host (tc :: rest) st) := by
      intro P hskip hrun hmal htool
      match hn : normalize_tool_arguments (fnOf tc).arguments with
      | .error e0 =>
        simp only [runToolCalls, hn]
        exact hmal e0 hn
      | .ok args =>
        by_cases hfalsy : pyFalsyStr (fnOf tc).name = true
        · simp only [runToolCalls, hn, hfalsy, if_true]
          exact hskip args hn hfalsy
        · rw [Bool.not_eq_true] at hfalsy
          match hh : host ((fnOf tc).name.getD "") args with
          | .error e0 =>
            simp only [runToolCalls, hn, hfalsy, Bool.false_eq_true, if_false, hh]
            obtain ⟨⟩ := e0
            exact htool args hn hfalsy hh
          | .ok res =>
            simp only [runToolCalls, hn, hfalsy, Bool.false_eq_true, if_false, hh]
            exact hrun args res hn hfalsy hh
    constructor
    · intro st2 h
      revert h
      refine expand (fun r => r = .ok st2 → st2.modelCalls = st.modelCalls) ?_ ?_ ?_ ?_
      · intro args _ _ h
        exact (ih st).1 st2 h
      · intro args res _ _ _ h
        exact (ih { st with
          messages := st.messages ++ [toolMessage ((fnOf tc).name.getD "") res]
          trace := st.trace ++ [((fnOf tc).name.getD "", args)] }).1 st2 h
      · intro e0 _ h
        cases h
      · intro args _ _ _ h
        cases h
    · intro e st2 h
      revert h
      refine expand (fun r => r = .error (e, st2) → st2.modelCalls = st.modelCalls) ?_ ?_ ?_ ?_
      · intro args _ _ h
        exact (ih st).2 e st2 h
      · intro args res _ _ _ h
        exact (ih { st with
          messages := st.messages ++ [toolMessage ((fnOf tc).name.getD "") res]
          trace := st.trace ++ [((fnOf tc).name.getD "", args)] }).2 e st2 h
      · intro e0 _ h
        cases h
        rfl
      · intro args _ _ _ h
        cases h
        rfl

/-- Whatever happens in the loop, at most the remaining step budget of model
invocations is added. -/
theorem runChatTurnLoop_modelCalls (model : ModelBackend) (host : ToolHost) :
    ∀ (fuel : Nat) (st : TurnState),
    (∀ s st2, runChatTurnLoop model host fuel st = .ok (s, st2) →
      st2.modelCalls ≤ st.modelCalls + fuel) ∧
    (∀ e st2, runChatTurnLoop model host fuel st = .error (e, st2) →
      st2.modelCalls ≤ st.modelCalls + fuel) := by
  intro fuel
  induction fuel with
  | zero =>
    intro st
    constructor
    · intro s st2 h
      rw [runChatTurnLoop] at h
      cases h
      omega
    · intro e st2 h
      rw [runChatTurnLoop] at h
      cases h
  | succ fuel ih =>
    intro st
    constructor
    · intro s st2 h
      rw [runChatTurnLoop] at h
      by_cases hempty : ((model st.modelCalls).tool_calls.getD []).isEmpty = true
      · rw [if_pos hempty] at h
        cases h
        show st.modelCalls + 1 ≤ st.modelCalls + (fuel + 1)
        omega
      · rw [if_neg hempty] at h
        revert h
        match hrun : runToolCalls host ((model st.modelCalls).tool_calls.getD [])
            ⟨st.messages ++ [model st.modelCalls], st.trace, st.modelCalls + 1⟩ with
        | .error e0 =>
          intro h
          cases h
        | .ok st3 =>
          intro h
          have h3 : st3.modelCalls = st.modelCalls + 1 :=
            (runToolCalls_modelCalls host _ _).1 st3 hrun
          have := (ih st3).1 s st2 h
          omega
    · intro e st2 h
      rw [runChatTurnLoop] at h
      by_cases hempty : ((model st.modelCalls).tool_calls.getD []).isEmpty = true
      · rw [if_pos hempty] at h
        cases h
      · rw [if_neg hempty] at h
        revert h
        match hrun : runToolCalls host ((model st.modelCalls).tool_calls.getD [])
            ⟨st.messages ++ [model st.modelCalls], st.trace, st.modelCalls + 1⟩ with
        | .error e0 =>
          intro h
          cases h
          have h2 : st2.modelCalls = st.modelCalls + 1 :=
            (runToolCalls_modelCalls host _ _).2 e st2 hrun
          omega
        | .ok st3 =>
          intro h
          have h3 : st3.modelCalls = st.modelCalls + 1 :=
            (runToolCalls_modelCalls host _ _).1 st3 hrun
          have := (ih st3).2 e st2 h
          omega

/-- The conversation suffix the loop accumulates over `k` consecutive
tool-calling steps starting at model call `i`: each step contributes the
assistant message followed by its tool-role messages, in order. -/
def turnTranscript (model : ModelBackend) (host : ToolHost) : Nat → Nat → List ChatMessage
  | _, 0 => []
  | i, k + 1 =>
      model i :: (((model i).tool_calls.getD []).filterMap (plannedToolMsg host)
        ++ turnTranscript model host (i + 1) k)


/-- Running the loop over a budget of steps that all return processable tool
calls exhausts the budget: the outcome is the fixed fallback string, exactly
the budget of model calls is added, and the conversation is extended by
exactly the per-step transcript and nothing else. -/
theorem loopAllToolCalls (model : ModelBackend) (host : ToolHost) :
    ∀ (k : Nat) (msgs : List ChatMessage) (tr0 : List (String × JValue)) (mc : Nat),
    (∀ i, mc ≤ i → i < mc + k →
      ((model i).tool_calls.getD []).isEmpty = false ∧
      ∀ tc ∈ (model i).tool_calls.getD [], callAborts host tc = false) →
    ∃ tr, runChatTurnLoop model host k ⟨msgs, tr0, mc⟩
      = .ok ("(stopped after too many tool steps)",
          ⟨msgs ++ turnTranscript model host mc k, tr, mc + k⟩) := by
  intro k
  induction k with
  | zero =>
    intro msgs tr0 mc _
    refine ⟨tr0, ?_⟩
    rw [runChatTurnLoop, turnTranscript]
    simp
  | succ k ih =>
    intro msgs tr0 mc h
    obtain ⟨hne, hok⟩ := h mc (Nat.le_refl _) (by omega)
    have hstep : runChatTurnLoop model host (k + 1) ⟨msgs, tr0, mc⟩
        = runChatTurnLoop model host k
            ⟨(msgs ++ [model mc])
               ++ ((model mc).tool_calls.getD []).filterMap (plannedToolMsg host),
             tr0 ++ ((model mc).tool_calls.getD []).filterMap (plannedInvocation host),
             mc + 1⟩ := by
      simp only [runChatTurnLoop]
      rw [if_neg (by simp [hne])]
      rw [runToolCalls_ok host _ _ hok]
    obtain ⟨tr, htr⟩ := ih
      ((msgs ++ [model mc])
         ++ ((model mc).tool_calls.getD []).filterMap (plannedToolMsg host))
      (tr0 ++ ((model mc).tool_calls.getD []).filterMap (plannedInvocation host))
      (mc + 1)
      (fun i h1 h2 => h i (by omega) (by omega))
    refine ⟨tr, ?_⟩
    rw [hstep, htr]
    have hmsg : ((msgs ++ [model mc])
          ++ ((model mc).tool_calls.getD []).filterMap (plannedToolMsg host))
          ++ turnTranscript model host (mc + 1) k
        = msgs ++ turnTranscript model host mc (k + 1) := by
      rw [turnTranscript]
      simp [List.append_assoc]
    have hmc : mc + 1 + k = mc + (k + 1) := by omega
    rw [hmsg, hmc]

/-! ## Claim theorems -/

/-- C5: the argument normalizer maps a null or absent payload to the empty
keyed argument set, passes an already-keyed payload through unchanged, and
decodes a string payload as structured data, failing with the malformed
arguments error exactly when decoding fails; such a failure propagates and
aborts the turn at the step that contains the offending request. -/
theorem claim_C5 :
    normalize_tool_arguments .pynone = .ok (.obj [])
    ∧ (∀ kvs, normalize_tool_arguments (.dict kvs) = .ok (.obj kvs))
    ∧ (∀ s v, jsonLoads s = some v → normalize_tool_arguments (.str s) = .ok v)
    ∧ (∀ s, jsonLoads s = none → normalize_tool_arguments (.str s) = .error .malformed)
    ∧ (∀ (model : ModelBackend) (host : ToolHost) (fuel : Nat)
        (msgs : List ChatMessage) (tr0 : List (String × JValue)) (mc : Nat)
        (tc : ToolCallRequest) (rest : List ToolCallRequest) (s : String),
        (model mc).tool_calls.getD [] = tc :: rest →
        (fnOf tc).arguments = .str s →
        jsonLoads s = none →
        runChatTurnLoop model host (fuel + 1) ⟨msgs, tr0, mc⟩
          = .error (.malformedArguments, ⟨msgs ++ [model mc], tr0, mc + 1⟩)) := by
  refine ⟨rfl, fun kvs => rfl, ?_, ?_, ?_⟩
  · intro s v h
    simp [normalize_tool_arguments, h]
  · intro s h
    simp [normalize_tool_arguments, h]
  · intro model host fuel msgs tr0 mc tc rest s hsplit harg hjson
    have hne : ((model mc).tool_calls.getD []).isEmpty = false := by
      rw [hsplit]
      rfl
    simp only [runChatTurnLoop]
    rw [if_neg (by simp [hne]), hsplit]
    have hrun : runToolCalls host (tc :: rest) ⟨msgs ++ [model mc], tr0, mc + 1⟩
        = .error (.malformedArguments, ⟨msgs ++ [model mc], tr0, mc + 1⟩) := by
      simp only [runToolCalls, harg, normalize_tool_arguments, hjson]
    rw [hrun]

/-- The concrete model and host of the C5 witness: the first response
requests one tool whose arguments are the undecodable string payload. -/
def w5model : ModelBackend :=
  fun _ => ⟨"assistant", none, some [⟨some ⟨some "t", .str "nope"⟩⟩], none⟩

/-- A host that always succeeds (never reached by the C5 witness). -/
def w5host : ToolHost := fun _ _ => .ok ⟨.pynone⟩

/-- Witness for C5 at concrete inputs: the string payload "nope" fails to
decode, normalisation rejects it, and the turn aborts with the malformed
arguments error right after the first model call. -/
theorem claim_C5_witness :
    jsonLoads "nope" = none
    ∧ normalize_tool_arguments (.str "nope") = .error .malformed
    ∧ runChatTurnLoop w5model w5host (19 + 1) ⟨[], [], 0⟩
        = .error (.malformedArguments, ⟨[] ++ [w5model 0], [], 0 + 1⟩) :=
  ⟨rfl, claim_C5.2.2.2.1 "nope" rfl,
   claim_C5.2.2.2.2 w5model w5host 19 [] [] 0 ⟨some ⟨some "t", .str "nope"⟩⟩ [] "nope"
     rfl rfl rfl⟩

/-- C6: the argument normalizer is idempotent on already-keyed input, and it
inverts the encoding on every keyed set: normalising the serialised form of
a keyed set recovers that keyed set, in particular for the pantry upsert
example payload. -/
theorem claim_C6 :
    (∀ kvs, normalize_tool_arguments (.dict kvs) = .ok (.obj kvs)
      ∧ renormalizeKeyed (.dict kvs) = normalize_tool_arguments (.dict kvs))
    ∧ (∀ kvs, normalize_tool_arguments (.str (jsonDumps (.obj kvs))) = .ok (.obj kvs))
    ∧ normalize_tool_arguments (.str "\x7b\"item\":\x7b\"name\":\"milk\"\x7d\x7d")
        = .ok (.obj [("item", .obj [("name", .str "milk")])]) := by
  refine ⟨fun kvs => ⟨rfl, rfl⟩, ?_, rfl⟩
  intro kvs
  simp [normalize_tool_arguments, jsonLoads_jsonDumps (.obj kvs)]

/-- C7: the result encoder is total over the documented result shapes: a
null payload encodes to the literal empty-object string, scalars encode to
their direct serialised form, a block sequence (empty included) encodes to a
serialised array, keyed data encodes as-is, and any other value encodes as
its string representation; in every case a string is returned. -/
theorem claim_C7 :
    tool_result_content_to_json_string .pynone = "\x7b\x7d"
    ∧ (∀ s, tool_result_content_to_json_string (.text s) = jsonDumps (.str s))
    ∧ (∀ n, tool_result_content_to_json_string (.int n) = jsonDumps (.num n))
    ∧ (∀ b, tool_result_content_to_json_string (.bool b) = jsonDumps (.bool b))
    ∧ (∀ bs, tool_result_content_to_json_string (.blocks bs)
        = jsonDumps (.arr (bs.map blockPart)))
    ∧ tool_result_content_to_json_string (.blocks []) = "[]"
    ∧ (∀ kvs, tool_result_content_to_json_string (.keyed kvs) = jsonDumps (.obj kvs))
    ∧ (∀ s, tool_result_content_to_json_string (.other s) = jsonDumps (.str s)) :=
  ⟨rfl, fun _ => rfl, fun _ => rfl, fun _ => rfl, fun _ => rfl, rfl, fun _ => rfl,
   fun _ => rfl⟩

/-- Whether an encoded block element is a string value, the form every
stringified block takes. -/
def isStrVal : JValue → Bool
  | .str _ => true
  | _ => false

/-- Whether an encoded block element has exactly the type/text keyed shape
the text-attribute branch produces. -/
def isTextShape : JValue → Bool
  | .obj [("type", .str "text"), ("text", .str _)] => true
  | _ => false

/-- Counterexample to C8 as stated: the source checks for a model_dump
method before the text attribute, so a dump-bearing block is encoded as its
structured dump.  At the concrete block whose dump is the keyed value with
field a mapped to true, the encoded element is that object: it is not a
string value, so not the stringified form of anything, and it does not have
the type/text shape either — yet the claim's case analysis (text shape or
stringified form) permits no third outcome.  The last conjunct shows the
full encoded sequence, an array holding the structured dump. -/
theorem claim_C8_counterexample :
    blockPart (Block.modelDump (JValue.obj [("a", JValue.bool true)]))
      = JValue.obj [("a", JValue.bool true)]
    ∧ isStrVal (blockPart (Block.modelDump (JValue.obj [("a", JValue.bool true)]))) = false
    ∧ isTextShape (blockPart (Block.modelDump (JValue.obj [("a", JValue.bool true)]))) = false
    ∧ isTextShape (blockPart (Block.textAttr "x")) = true
    ∧ isStrVal (blockPart (Block.strRepr "x")) = true
    ∧ tool_result_content_to_json_string
        (.blocks [Block.modelDump (JValue.obj [("a", JValue.bool true)])])
      = "[\x7b\"a\": true\x7d]" :=
  ⟨rfl, rfl, rfl, rfl, rfl, rfl⟩

/-- C8 (amended): the result encoder first checks each block for a dump
method and encodes such a block as its structured dump (the source tests
model_dump before the text attribute, so every pydantic block, text blocks
included, takes this branch); otherwise a block exposing a text attribute
becomes the keyed shape with type text and the text value; any other block
becomes its string representation; and a block sequence is encoded as an
array that preserves the original block order. -/
theorem claim_C8 :
    (∀ v, blockPart (.modelDump v) = v)
    ∧ (∀ t, blockPart (.textAttr t) = .obj [("type", .str "text"), ("text", .str t)])
    ∧ (∀ s, blockPart (.strRepr s) = .str s)
    ∧ (∀ bs, tool_result_content_to_json_string (.blocks bs)
        = jsonDumps (.arr (bs.map blockPart)))
    ∧ (∀ b bs, (b :: bs).map blockPart = blockPart b :: bs.map blockPart)
    ∧ tool_result_content_to_json_string (.blocks [.textAttr "[]"])
        = "[\x7b\"type\": \"text\", \"text\": \"[]\"\x7d]" :=
  ⟨fun _ => rfl, fun _ => rfl, fun _ => rfl, fun _ => rfl, fun _ _ => rfl, rfl⟩

/-- Counterexample to C9 as stated: a descriptor whose input schema is
present but empty also has the empty-object schema substituted, so the
substitution does not happen exactly when the schema is absent.  Here the
schema is `some []` (present), yet the adapted parameters are the
empty-object schema rather than the provided schema verbatim. -/
theorem claim_C9_counterexample :
    mcp_tools_to_ollama_tools ⟨[⟨"t0", some "d", some []⟩]⟩
      = [⟨"function", ⟨"t0", "d", emptyObjectSchema⟩⟩]
    ∧ emptyObjectSchema ≠ ([] : List (String × JValue)) :=
  ⟨rfl, by simp [emptyObjectSchema]⟩

/-- C9 (amended): for every list of tool descriptors the adapter produces
one entry per descriptor in order, each tagged "function", with the name
preserved, the description preserved (defaulting to the empty string when it
is absent or empty), and the parameters equal to the input schema verbatim,
substituting the empty-object schema exactly when the schema is absent or
the empty keyed set (Python falsiness of the schema value). -/
theorem claim_C9 (resp : ListToolsResult) :
    (mcp_tools_to_ollama_tools resp).length = resp.tools.length
    ∧ (∀ i : Nat, (mcp_tools_to_ollama_tools resp)[i]?
        = (resp.tools[i]?).map (fun t =>
            { tag := "function"
              function :=
                { name := t.name
                  description := pyOrString t.description ""
                  parameters := pyOrSchema t.inputSchema } }))
    ∧ (∀ (t : ToolDescriptor) (s : List (String × JValue)),
        t.inputSchema = some s → s ≠ [] → pyOrSchema t.inputSchema = s)
    ∧ (∀ t : ToolDescriptor, t.inputSchema = none →
        pyOrSchema t.inputSchema = emptyObjectSchema)
    ∧ (∀ t : ToolDescriptor, t.inputSchema = some [] →
        pyOrSchema t.inputSchema = emptyObjectSchema)
    ∧ (∀ (t : ToolDescriptor) (d : String),
        t.description = some d → d ≠ "" → pyOrString t.description "" = d)
    ∧ (∀ t : ToolDescriptor, t.description = none → pyOrString t.description "" = "") := by
  refine ⟨?_, ?_, ?_, ?_, ?_, ?_, ?_⟩
  · simp [mcp_tools_to_ollama_tools]
  · intro i
    simp [mcp_tools_to_ollama_tools]
  · intro t s hs hne
    rw [hs]
    match s, hne with
    | a :: l, _ => rfl
  · intro t hs
    rw [hs]
    rfl
  · intro t hs
    rw [hs]
    rfl
  · intro t d hd hne
    rw [hd]
    show (if d = "" then "" else d) = d
    rw [if_neg hne]
  · intro t hd
    rw [hd]
    rfl

/-- The concrete one-descriptor registry of the C9 witness. -/
def w9resp : ListToolsResult :=
  ⟨[⟨"pantry_list_items", some "list", some [("type", .str "object")]⟩]⟩

/-- The empty registry, used to instantiate the descriptor-level parts of the
C9 witness. -/
def w9empty : ListToolsResult := ⟨[]⟩

/-- Witness for C9 at a concrete registry: one descriptor with a nonempty
schema is adapted verbatim, and the defaulting branches fire on the
documented falsy inputs. -/
theorem claim_C9_witness :
    (mcp_tools_to_ollama_tools w9resp).length = w9resp.tools.length
    ∧ pyOrSchema (some [("type", JValue.str "object")]) = [("type", JValue.str "object")]
    ∧ pyOrSchema (none : Option (List (String × JValue))) = emptyObjectSchema
    ∧ pyOrString (some "list") "" = "list" :=
  ⟨(claim_C9 w9resp).1,
   (claim_C9 w9empty).2.2.1 ⟨"x", none, some [("type", .str "object")]⟩
     [("type", .str "object")] rfl (by simp),
   (claim_C9 w9empty).2.2.2.1 ⟨"x", none, none⟩ rfl,
   (claim_C9 w9empty).2.2.2.2.2.1 ⟨"x", some "list", none⟩ "list" rfl (by simp)⟩

/-- C10: pantry items are keyed case-insensitively (over ASCII case) by
name: removing under any spelling that lower-cases to the same key as an
upserted item succeeds, and upserting two items whose names lower-case to
the same key leaves exactly one stored row under that key, holding the later
write. -/
theorem claim_C10 :
    (∀ (db : Pantry) (item : PantryItem) (s : String),
      pyLower s = pyLower item.name →
      (remove_pantry_item (upsert_pantry_item db item) s).2 = true)
    ∧ (∀ (db : Pantry) (i1 i2 : PantryItem),
      pyLower i1.name = pyLower i2.name →
      (upsert_pantry_item (upsert_pantry_item db i1) i2).filter
          (fun r => r.1 = pyLower i2.name)
        = [(pyLower i2.name, i2)]) := by
  constructor
  · intro db item s h
    show (upsert_pantry_item db item).any (fun r => r.1 = pyLower s) = true
    rw [upsert_pantry_item, List.any_append]
    simp [h]
  · intro db i1 i2 h
    rw [upsert_pantry_item, upsert_pantry_item]
    rw [List.filter_append]
    have h1 : (((db.filter (fun r => r.1 ≠ pyLower i1.name) ++ [(pyLower i1.name, i1)]).filter
        (fun r => r.1 ≠ pyLower i2.name)).filter (fun r => r.1 = pyLower i2.name)) = [] := by
      rw [List.filter_filter]
      apply List.filter_eq_nil_iff.mpr
      intro a _
      simp only [Bool.and_eq_true, decide_eq_true_eq, Decidable.not_not]
      intro hcontra
      exact absurd hcontra.2 (by simp [hcontra.1])
    rw [h1]
    simp

/-- Witness for C10 at concrete items: after upserting Milk, removal under
the spelling MILK reports success, and upserting Milk then MILK leaves
exactly one row under the shared key, holding the later item. -/
theorem claim_C10_witness :
    (remove_pantry_item (upsert_pantry_item [] ⟨"Milk", none, none, none⟩) "MILK").2 = true
    ∧ (upsert_pantry_item (upsert_pantry_item [] ⟨"Milk", none, none, none⟩)
          ⟨"MILK", some 2, none, none⟩).filter
        (fun r => r.1 = pyLower "MILK")
      = [(pyLower "MILK", ⟨"MILK", some 2, none, none⟩)] :=
  ⟨claim_C10.1 [] ⟨"Milk", none, none, none⟩ "MILK" rfl,
   claim_C10.2 [] ⟨"Milk", none, none, none⟩ ⟨"MILK", some 2, none, none⟩ rfl⟩

/-- A named request that does not abort contributes exactly one planned tool
message and exactly one planned invocation. -/
theorem planned_isSome (host : ToolHost) (tc : ToolCallRequest)
    (hf : pyFalsyStr (fnOf tc).name = false) (ha : callAborts host tc = false) :
    (plannedToolMsg host tc).isSome = true ∧ (plannedInvocation host tc).isSome = true := by
  match hn : normalize_tool_arguments (fnOf tc).arguments with
  | .error e => simp [callAborts, hn] at ha
  | .ok args =>
    match hh : host ((fnOf tc).name.getD "") args with
    | .error e => simp [callAborts, hn, hf, hh] at ha
    | .ok res =>
      exact ⟨by simp [plannedToolMsg, hn, hf, hh], by simp [plannedInvocation, hn, hf, hh]⟩

/-- One loop step on a response without tool calls: the loop returns the
trimmed content (or the placeholder for empty content) and leaves the
conversation and the trace untouched, adding exactly one model call. -/
theorem loopNoToolCalls (model : ModelBackend) (host : ToolHost) (fuel : Nat)
    (msgs : List ChatMessage) (tr0 : List (String × JValue)) (mc : Nat)
    (h : (model mc).tool_calls.getD [] = []) :
    runChatTurnLoop model host (fuel + 1) ⟨msgs, tr0, mc⟩
      = .ok ((if pyStrip ((model mc).content.getD "") = "" then "(no content)"
             else pyStrip ((model mc).content.getD "")),
             ⟨msgs, tr0, mc + 1⟩) := by
  simp only [runChatTurnLoop]
  rw [h]
  simp

/-- C1 (amended): at any step of the loop whose model response carries a
nonempty list of tool call requests, all of them named and none of them
aborting, the loop proceeds to the next model invocation with exactly one
tool-role message appended per request, after the assistant message, in
request order, and with exactly one tool host invocation recorded per
request, in request order.  Requests with a falsy name would be skipped
without an invocation, which is why the named hypothesis is required. -/
theorem claim_C1 (model : ModelBackend) (host : ToolHost) (fuel : Nat)
    (msgs : List ChatMessage) (tr0 : List (String × JValue)) (mc : Nat)
    (hne : (model mc).tool_calls.getD [] ≠ [])
    (hnamed : ∀ tc ∈ (model mc).tool_calls.getD [], pyFalsyStr (fnOf tc).name = false)
    (hok : ∀ tc ∈ (model mc).tool_calls.getD [], callAborts host tc = false) :
    runChatTurnLoop model host (fuel + 1) ⟨msgs, tr0, mc⟩
      = runChatTurnLoop model host fuel
          ⟨msgs ++ model mc
             :: ((model mc).tool_calls.getD []).filterMap (plannedToolMsg host),
           tr0 ++ ((model mc).tool_calls.getD []).filterMap (plannedInvocation host),
           mc + 1⟩
    ∧ (((model mc).tool_calls.getD []).filterMap (plannedToolMsg host)).length
        = ((model mc).tool_calls.getD []).length
    ∧ (((model mc).tool_calls.getD []).filterMap (plannedInvocation host)).length
        = ((model mc).tool_calls.getD []).length := by
  have hE : ((model mc).tool_calls.getD []).isEmpty = false := by
    rcases h2 : (model mc).tool_calls.getD [] with _ | ⟨a, l⟩
    · exact absurd h2 hne
    · rfl
  refine ⟨?_, ?_, ?_⟩
  · simp only [runChatTurnLoop]
    rw [if_neg (by simp [hE]), runToolCalls_ok host _ _ hok]
    have hassoc : (msgs ++ [model mc])
          ++ ((model mc).tool_calls.getD []).filterMap (plannedToolMsg host)
        = msgs ++ model mc
            :: ((model mc).tool_calls.getD []).filterMap (plannedToolMsg host) := by
      simp
    rw [hassoc]
  · exact length_filterMap_allSome _ _
      (fun tc htc => (planned_isSome host tc (hnamed tc htc) (hok tc htc)).1)
  · exact length_filterMap_allSome _ _
      (fun tc htc => (planned_isSome host tc (hnamed tc htc) (hok tc htc)).2)

/-- The model of the C1 counterexample: the first response carries one
nameless tool call request, the second a plain answer. -/
def c1model : ModelBackend := fun i =>
  if i = 0 then ⟨"assistant", none, some [⟨some ⟨none, .pynone⟩⟩], none⟩
  else ⟨"assistant", some "done", none, none⟩

/-- A host that always succeeds (never invoked by the C1 counterexample). -/
def c1host : ToolHost := fun _ _ => .ok ⟨.pynone⟩

/-- Counterexample to C1 as stated: the first response carries N = 1 tool
call requests, yet the completed turn performed zero tool host invocations
(the trace is empty) and appended no tool-role message before the second
model invocation, because the source skips a request whose name is missing.
So the unqualified claim "exactly N invocations, one tool message per
request" is false on the code. -/
theorem claim_C1_counterexample :
    ((c1model 0).tool_calls.getD []).length = 1
    ∧ run_chat_turn c1model c1host [] = .ok ("done", ⟨[c1model 0], [], 2⟩) :=
  ⟨rfl, rfl⟩

/-- The model of the C1 witness: two named tool call requests in one step. -/
def w1model : ModelBackend := fun _ =>
  ⟨"assistant", none,
   some [⟨some ⟨some "a", .pynone⟩⟩, ⟨some ⟨some "b", .dict [("k", .str "v")]⟩⟩], none⟩

/-- The host of the C1 witness. -/
def w1host : ToolHost := fun _ _ => .ok ⟨.text "ok"⟩

/-- Witness for C1 at a concrete two-request step. -/
theorem claim_C1_witness :
    runChatTurnLoop w1model w1host (5 + 1) ⟨[], [], 0⟩
      = runChatTurnLoop w1model w1host 5
          ⟨[] ++ w1model 0
             :: ((w1model 0).tool_calls.getD []).filterMap (plannedToolMsg w1host),
           [] ++ ((w1model 0).tool_calls.getD []).filterMap (plannedInvocation w1host),
           0 + 1⟩
    ∧ (((w1model 0).tool_calls.getD []).filterMap (plannedToolMsg w1host)).length
        = ((w1model 0).tool_calls.getD []).length
    ∧ (((w1model 0).tool_calls.getD []).filterMap (plannedInvocation w1host)).length
        = ((w1model 0).tool_calls.getD []).length :=
  claim_C1 w1model w1host 5 [] [] 0 (by simp [w1model])
    (by intro tc htc; simp [w1model] at htc; rcases htc with rfl | rfl <;> rfl)
    (by intro tc htc; simp [w1model] at htc; rcases htc with rfl | rfl <;> rfl)

/-- C2 (amended): when the first model response carries no tool call
requests, run_chat_turn makes exactly one model call, returns the
whitespace-trimmed content as the outcome (substituting the placeholder for
empty content), performs no tool invocations, and leaves the conversation
exactly as it received it: the assistant reply is returned, not appended
(persisting it is the business of the caller in the source). -/
theorem claim_C2 (model : ModelBackend) (host : ToolHost) (msgs : List ChatMessage)
    (h : (model 0).tool_calls.getD [] = []) :
    run_chat_turn model host msgs
      = .ok ((if pyStrip ((model 0).content.getD "") = "" then "(no content)"
             else pyStrip ((model 0).content.getD "")),
             ⟨msgs, [], 1⟩) := by
  show runChatTurnLoop model host (19 + 1) ⟨msgs, [], 0⟩ = _
  exact loopNoToolCalls model host 19 msgs [] 0 h

/-- The model of the C2 counterexample: one response with content to trim
and no tool calls. -/
def c2model : ModelBackend := fun _ => ⟨"assistant", some " hi ", none, none⟩

/-- A host that always fails (never invoked by the C2 counterexample). -/
def c2host : ToolHost := fun _ _ => .error ()

/-- Counterexample to C2 as stated: the first response has no tool calls and
content " hi "; the outcome is the trimmed "hi" after exactly one model
call, as claimed, but the conversation returned by the run is still the
initial empty one: run_chat_turn appends no assistant message in this case
(the append happens in the callers of the source), so the appending conjunct
of the claim is false on the code. -/
theorem claim_C2_counterexample :
    run_chat_turn c2model c2host [] = .ok ("hi", ⟨[], [], 1⟩) := rfl

/-- The model of the C2 witness: whitespace-only content, exercising the
placeholder branch. -/
def w2model : ModelBackend := fun _ => ⟨"assistant", some "   ", none, none⟩

/-- Witness for C2 at a concrete no-tool-call response. -/
theorem claim_C2_witness :
    run_chat_turn w2model c2host [⟨"user", some "hello", none, none⟩]
      = .ok ((if pyStrip ((w2model 0).content.getD "") = "" then "(no content)"
             else pyStrip ((w2model 0).content.getD "")),
             ⟨[⟨"user", some "hello", none, none⟩], [], 1⟩)
    ∧ pyStrip "   " = "" :=
  ⟨claim_C2 w2model c2host [⟨"user", some "hello", none, none⟩] rfl, rfl⟩

/-- C3: run_chat_turn makes at most MAX_STEPS (twenty) model invocations per
turn, whether it returns an outcome or aborts; and when every one of those
MAX_STEPS responses carries tool calls (all processable), the outcome is the
fixed fallback string, exactly MAX_STEPS model calls are made, and the final
conversation is the initial one extended by exactly the per-step transcript
(assistant message plus its tool-role messages, step by step) with no
synthetic final assistant message appended beyond it. -/
theorem claim_C3 :
    (∀ (model : ModelBackend) (host : ToolHost) (msgs : List ChatMessage),
      (∀ s st, run_chat_turn model host msgs = .ok (s, st) → st.modelCalls ≤ MAX_STEPS)
      ∧ (∀ e st, run_chat_turn model host msgs = .error (e, st) →
          st.modelCalls ≤ MAX_STEPS))
    ∧ (∀ (model : ModelBackend) (host : ToolHost) (msgs : List ChatMessage),
      (∀ i, i < MAX_STEPS →
        ((model i).tool_calls.getD []).isEmpty = false
        ∧ ∀ tc ∈ (model i).tool_calls.getD [], callAborts host tc = false) →
      ∃ tr, run_chat_turn model host msgs
        = .ok ("(stopped after too many tool steps)",
            ⟨msgs ++ turnTranscript model host 0 MAX_STEPS, tr, MAX_STEPS⟩)) := by
  constructor
  · intro model host msgs
    constructor
    · intro s st h
      have hb := (runChatTurnLoop_modelCalls model host MAX_STEPS ⟨msgs, [], 0⟩).1 s st h
      have h0 : (⟨msgs, [], 0⟩ : TurnState).modelCalls = 0 := rfl
      omega
    · intro e st h
      have hb := (runChatTurnLoop_modelCalls model host MAX_STEPS ⟨msgs, [], 0⟩).2 e st h
      have h0 : (⟨msgs, [], 0⟩ : TurnState).modelCalls = 0 := rfl
      omega
  · intro model host msgs h
    obtain ⟨tr, htr⟩ := loopAllToolCalls model host MAX_STEPS msgs [] 0
      (fun i h1 h2 => h i (by omega))
    exact ⟨tr, htr⟩

/-- The model of the C3 witness: every response requests the same named
tool. -/
def w3model : ModelBackend := fun _ =>
  ⟨"assistant", none, some [⟨some ⟨some "t", .pynone⟩⟩], none⟩

/-- The host of the C3 witness. -/
def w3host : ToolHost := fun _ _ => .ok ⟨.pynone⟩

/-- The final state of the C3 witness run. -/
def w3state : TurnState :=
  match run_chat_turn w3model w3host [] with
  | .ok (_, st) => st
  | .error (_, st) => st

/-- Witness for C3: the concrete all-tool-calls run stays within the model
call budget and ends in the fallback outcome with the full transcript. -/
theorem claim_C3_witness :
    w3state.modelCalls ≤ MAX_STEPS
    ∧ ∃ tr, run_chat_turn w3model w3host []
        = .ok ("(stopped after too many tool steps)",
            ⟨[] ++ turnTranscript w3model w3host 0 MAX_STEPS, tr, MAX_STEPS⟩) :=
  ⟨(claim_C3.1 w3model w3host []).1 "(stopped after too many tool steps)" w3state rfl,
   claim_C3.2 w3model w3host []
     (fun i _ => ⟨rfl, fun tc htc => by simp [w3model] at htc; subst htc; rfl⟩)⟩

/-- C4: when a tool host invocation fails at any step of the loop, the turn
aborts with the tool invocation error, the failure is not retried and no
result is fabricated for it (no tool-role message and no trace entry exist
for the failing call or anything after it), and the conversation retains
exactly the messages appended before the failing call: the assistant message
and one tool-role message per processed earlier request, unmodified. -/
theorem claim_C4 (model : ModelBackend) (host : ToolHost) (fuel : Nat)
    (msgs : List ChatMessage) (tr0 : List (String × JValue)) (mc : Nat)
    (pre : List ToolCallRequest) (tc : ToolCallRequest) (post : List ToolCallRequest)
    (args : JValue)
    (hsplit : (model mc).tool_calls.getD [] = pre ++ tc :: post)
    (hpre : ∀ tc2 ∈ pre, callAborts host tc2 = false)
    (hn : normalize_tool_arguments (fnOf tc).arguments = .ok args)
    (hfalsy : pyFalsyStr (fnOf tc).name = false)
    (hh : host ((fnOf tc).name.getD "") args = .error ()) :
    runChatTurnLoop model host (fuel + 1) ⟨msgs, tr0, mc⟩
      = .error (.toolInvocation,
          ⟨msgs ++ model mc :: pre.filterMap (plannedToolMsg host),
           tr0 ++ pre.filterMap (plannedInvocation host),
           mc + 1⟩) := by
  have hE : ((model mc).tool_calls.getD []).isEmpty = false := by
    rw [hsplit]
    cases pre <;> rfl
  simp only [runChatTurnLoop]
  rw [if_neg (by simp [hE]), hsplit,
    runToolCalls_hostFail host pre tc post ⟨msgs ++ [model mc], tr0, mc + 1⟩ args
      hpre hn hfalsy hh]
  simp [List.append_assoc]

/-- The model of the C4 witness: one step requesting a good tool then a bad
tool. -/
def w4model : ModelBackend := fun _ =>
  ⟨"assistant", none,
   some [⟨some ⟨some "good", .pynone⟩⟩, ⟨some ⟨some "bad", .pynone⟩⟩], none⟩

/-- The host of the C4 witness: fails exactly on the bad tool. -/
def w4host : ToolHost := fun n _ =>
  if n = "bad" then .error () else .ok ⟨.text "ok"⟩

/-- Witness for C4: the concrete run aborts with the tool invocation error
right after the good call, retaining the assistant message and the good
tool message only. -/
theorem claim_C4_witness :
    runChatTurnLoop w4model w4host (19 + 1) ⟨[], [], 0⟩
      = .error (.toolInvocation,
          ⟨[] ++ w4model 0
             :: ([⟨some ⟨some "good", .pynone⟩⟩] : List ToolCallRequest).filterMap
                  (plannedToolMsg w4host),
           [] ++ ([⟨some ⟨some "good", .pynone⟩⟩] : List ToolCallRequest).filterMap
                  (plannedInvocation w4host),
           0 + 1⟩)
    ∧ run_chat_turn w4model w4host []
      = .error (.toolInvocation,
          ⟨[w4model 0, toolMessage "good" ⟨.text "ok"⟩], [("good", .obj [])], 1⟩) :=
  ⟨claim_C4 w4model w4host 19 [] [] 0 [⟨some ⟨some "good", .pynone⟩⟩]
     ⟨some ⟨some "bad", .pynone⟩⟩ [] (.obj []) rfl
     (by intro tc2 h2; simp at h2; subst h2; rfl) rfl rfl rfl,
   rfl⟩
